import Mathlib

/-!
Verification development for the delta-abc proof-of-work block engine and
UTXO transaction ledger.  The Python sources under `src/` are shallowly
embedded: `hashlib.sha256` is given as an executable SHA-256 over `Nat`
bytes, Python dictionaries with their insertion order are embedded as
association lists, the on-disk ledger files (`node_info.json`,
`unspent_outputs`, per-block files) become an explicit `Ledger` state that
every file-touching operation threads, and Python exceptions become
`Option`/`Except` results.
-/

namespace DeltaABC

/-! ## SHA-256 over `Nat` bytes (model of Python `hashlib.sha256(...).hexdigest()`) -/

/-- UTF-8 encoding of one Unicode code point, each byte a `Nat` below 256. -/
def encodeChar (n : Nat) : List Nat :=
  if n < 128 then [n]
  else if n < 2048 then [192 + n / 64, 128 + n % 64]
  else if n < 65536 then [224 + n / 4096, 128 + (n / 64) % 64, 128 + n % 64]
  else [240 + n / 262144, 128 + (n / 4096) % 64, 128 + (n / 64) % 64, 128 + n % 64]

/-- Bytes of the UTF-8 encoding of a string (Python `bytes(s, encoding=utf8)`). -/
def utf8Bytes (s : String) : List Nat :=
  s.data.foldr (fun c acc => encodeChar c.toNat ++ acc) []

/-- Truncation to a 32-bit word. -/
def w32 (n : Nat) : Nat := n % 4294967296

/-- Right rotation of a 32-bit word. -/
def rotr (x n : Nat) : Nat := w32 ((x >>> n) ||| (x <<< (32 - n)))

def shaCh (x y z : Nat) : Nat := (x &&& y) ^^^ ((x ^^^ 4294967295) &&& z)

def shaMaj (x y z : Nat) : Nat := (x &&& y) ^^^ (x &&& z) ^^^ (y &&& z)

def bigSig0 (x : Nat) : Nat := (rotr x 2) ^^^ (rotr x 13) ^^^ (rotr x 22)

def bigSig1 (x : Nat) : Nat := (rotr x 6) ^^^ (rotr x 11) ^^^ (rotr x 25)

def smallSig0 (x : Nat) : Nat := (rotr x 7) ^^^ (rotr x 18) ^^^ (x >>> 3)

def smallSig1 (x : Nat) : Nat := (rotr x 17) ^^^ (rotr x 19) ^^^ (x >>> 10)

/-- The SHA-256 round constants. -/
def K256 : List Nat :=
  [1116352408, 1899447441, 3049323471, 3921009573,
   961987163, 1508970993, 2453635748, 2870763221,
   3624381080, 310598401, 607225278, 1426881987,
   1925078388, 2162078206, 2614888103, 3248222580,
   3835390401, 4022224774, 264347078, 604807628,
   770255983, 1249150122, 1555081692, 1996064986,
   2554220882, 2821834349, 2952996808, 3210313671,
   3336571891, 3584528711, 113926993, 338241895,
   666307205, 773529912, 1294757372, 1396182291,
   1695183700, 1986661051, 2177026350, 2456956037,
   2730485921, 2820302411, 3259730800, 3345764771,
   3516065817, 3600352804, 4094571909, 275423344,
   430227734, 506948616, 659060556, 883997877,
   958139571, 1322822218, 1537002063, 1747873779,
   1955562222, 2024104815, 2227730452, 2361852424,
   2428436474, 2756734187, 3204031479, 3329325298]

/-- Big-endian 8-byte encoding of a length in bits. -/
def be64 (n : Nat) : List Nat :=
  [(n >>> 56) % 256, (n >>> 48) % 256, (n >>> 40) % 256, (n >>> 32) % 256,
   (n >>> 24) % 256, (n >>> 16) % 256, (n >>> 8) % 256, n % 256]

/-- SHA-256 message padding: a 0x80 byte, zeros to 56 mod 64, then the
bit length big-endian. -/
def padBytes (b : List Nat) : List Nat :=
  b ++ 128 :: (List.replicate ((119 - b.length % 64) % 64) 0 ++ be64 (8 * b.length))

/-- Big-endian 32-bit words from a list of bytes. -/
def toWords : List Nat → List Nat
  | a :: b :: c :: d :: rest => (((a * 256 + b) * 256 + c) * 256 + d) :: toWords rest
  | _ => []

/-- Message-schedule extension; `acc` holds the words computed so far, most
recent first. -/
def extendW : Nat → List Nat → List Nat
  | 0, acc => acc
  | n + 1, acc =>
    extendW n
      (w32 (smallSig1 (acc.getD 1 0) + acc.getD 6 0 + smallSig0 (acc.getD 14 0) +
        acc.getD 15 0) :: acc)

/-- The eight working words of the SHA-256 state. -/
structure H8 where
  a : Nat
  b : Nat
  c : Nat
  d : Nat
  e : Nat
  f : Nat
  g : Nat
  h : Nat
deriving DecidableEq

/-- Initial SHA-256 state. -/
def shaInit : H8 :=
  ⟨1779033703, 3144134277, 1013904242, 2773480762,
   1359893119, 2600822924, 528734635, 1541459225⟩

/-- One SHA-256 compression round. -/
def shaRound (st : H8) (kw : Nat × Nat) : H8 :=
  let t1 := w32 (st.h + bigSig1 st.e + shaCh st.e st.f st.g + kw.1 + kw.2)
  let t2 := w32 (bigSig0 st.a + shaMaj st.a st.b st.c)
  ⟨w32 (t1 + t2), st.a, st.b, st.c, w32 (st.d + t1), st.e, st.f, st.g⟩

/-- Compression of one 64-byte block into the running state. -/
def shaCompress (st : H8) (block : List Nat) : H8 :=
  let ws := (extendW 48 (toWords block).reverse).reverse
  let r := (K256.zip ws).foldl shaRound st
  ⟨w32 (st.a + r.a), w32 (st.b + r.b), w32 (st.c + r.c), w32 (st.d + r.d),
   w32 (st.e + r.e), w32 (st.f + r.f), w32 (st.g + r.g), w32 (st.h + r.h)⟩

/-- Split into 64-byte chunks; the first argument is recursion fuel (the
byte length is always enough). -/
def chunks64 : Nat → List Nat → List (List Nat)
  | 0, _ => []
  | _, [] => []
  | fuel + 1, l => l.take 64 :: chunks64 fuel (l.drop 64)

/-- SHA-256 digest of a byte list, as eight 32-bit words. -/
def sha256Words (msg : List Nat) : List Nat :=
  let p := padBytes msg
  let st := (chunks64 p.length p).foldl shaCompress shaInit
  [st.a, st.b, st.c, st.d, st.e, st.f, st.g, st.h]

/-- Lowercase hexadecimal digit. -/
def hexDigit (n : Nat) : Char := Char.ofNat (if n < 10 then 48 + n else 87 + n)

/-- Eight hex characters of a 32-bit word, big-endian. -/
def word8Hex (n : Nat) : List Char :=
  [hexDigit ((n >>> 28) % 16), hexDigit ((n >>> 24) % 16), hexDigit ((n >>> 20) % 16),
   hexDigit ((n >>> 16) % 16), hexDigit ((n >>> 12) % 16), hexDigit ((n >>> 8) % 16),
   hexDigit ((n >>> 4) % 16), hexDigit (n % 16)]

/-- Model of Python `sha256(bytes(s, encoding=utf8)).hexdigest()`. -/
def sha256hex (s : String) : String :=
  String.mk ((sha256Words (utf8Bytes s)).foldr (fun w acc => word8Hex w ++ acc) [])

/-! ## Python values

Python dictionaries preserve insertion order, so a dict is embedded as an
association list of its entries in insertion order; `sorted(d.items())`
produces a list of tuples, hence the separate `list` and `tup`
constructors.  `str`/`repr` rendering is modelled by `pyRepr` below. -/

inductive PyVal where
  | str : String → PyVal
  | int : Int → PyVal
  | flt : Rat → PyVal
  | bool : Bool → PyVal
  | pnone : PyVal
  | list : List PyVal → PyVal
  | tup : List PyVal → PyVal
  | dict : List (String × PyVal) → PyVal

/-- Rendering of a Python float amount.  Amounts are embedded as exact
rationals; an integral value renders as Python renders the corresponding
float (`25.0`).  Non-integral values fall back to `num/den`, which no
concrete data in this development uses. -/
def ratStr (q : Rat) : String :=
  if q.den == 1 then toString q.num ++ ".0" else toString q.num ++ "/" ++ toString q.den

/-- A single-quote character, used by Python `repr` of strings. -/
def sq : String := String.singleton (Char.ofNat 39)

/-- Left brace, used by Python `repr` of dicts. -/
def lbr : String := String.singleton (Char.ofNat 123)

/-- Right brace. -/
def rbr : String := String.singleton (Char.ofNat 125)

mutual

/-- Model of Python `repr` on the embedded values (strings are assumed to
contain no characters that `repr` would escape, which holds for every
string this development feeds it). -/
def pyRepr : PyVal → String
  | .str s => sq ++ s ++ sq
  | .int n => toString n
  | .flt q => ratStr q
  | .bool b => if b then "True" else "False"
  | .pnone => "None"
  | .list xs => "[" ++ pyReprSeq xs ++ "]"
  | .tup xs => "(" ++ pyReprSeq xs ++ (if xs.length == 1 then ",)" else ")")
  | .dict kvs => lbr ++ pyReprEntries kvs ++ rbr

/-- Comma-separated `repr` of a sequence of values. -/
def pyReprSeq : List PyVal → String
  | [] => ""
  | [x] => pyRepr x
  | x :: y :: xs => pyRepr x ++ ", " ++ pyReprSeq (y :: xs)

/-- Comma-separated `repr` of dict entries. -/
def pyReprEntries : List (String × PyVal) → String
  | [] => ""
  | [(k, v)] => sq ++ k ++ sq ++ ": " ++ pyRepr v
  | (k, v) :: e :: es => sq ++ k ++ sq ++ ": " ++ pyRepr v ++ ", " ++ pyReprEntries (e :: es)

end

/-- Model of Python `str` when applied by `format`: strings render without
quotes, everything else as `repr`. -/
def pyStr : PyVal → String
  | .str s => s
  | v => pyRepr v

/-! ## Stable sorting of dict entries by key (Python `sorted(d.items(), key=...)`) -/

/-- Lexicographic comparison of character lists by code point, the order
Python uses on strings. -/
def charsLtB : List Char → List Char → Bool
  | [], [] => false
  | [], _ :: _ => true
  | _ :: _, [] => false
  | a :: as, b :: bs =>
    if Nat.blt a.toNat b.toNat then true
    else if Nat.blt b.toNat a.toNat then false
    else charsLtB as bs

/-- Python `a < b` on strings. -/
def strLtB (a b : String) : Bool := charsLtB a.data b.data

/-- Insert an entry into a key-sorted entry list, after any entry with an
equal key (stable, like Python `sorted`). -/
def insertByKey (x : String × PyVal) : List (String × PyVal) → List (String × PyVal)
  | [] => [x]
  | y :: ys => if strLtB x.1 y.1 then x :: y :: ys else y :: insertByKey x ys

/-- Stable insertion sort of dict entries by key: model of
`sorted(d.items(), key=lambda k: k[0])`. -/
def sortPairs : List (String × PyVal) → List (String × PyVal)
  | [] => []
  | x :: xs => insertByKey x (sortPairs xs)

/-- First value bound to a key in an association list (Python `d[k]` when it
succeeds). -/
def alookupPy (k : String) : List (String × PyVal) → Option PyVal
  | [] => Option.none
  | (k2, v) :: rest => if k2 == k then some v else alookupPy k rest

/-- A key-sorted entry list as the list of tuples `sorted(...)` returns. -/
def pairsToTups (l : List (String × PyVal)) : PyVal :=
  .list (l.map fun kv => .tup [.str kv.1, kv.2])

/-! ## Block data ordering (`Block.__set_order_data`) -/

/-- One transaction dict prepared for hashing, per `__set_order_data`:
`t[unlock] = sorted(t[unlock].items())`, then `t = sorted(t.items())`.
`Option.none` models the `KeyError`/`AttributeError` Python would raise on a
transaction that is not a dict with a dict under the `unlock` key. -/
def orderTxn (t : PyVal) : Option PyVal :=
  match t with
  | .dict entries =>
    match alookupPy "unlock" entries with
    | some (.dict ul) =>
      let entries2 := entries.map fun kv =>
        if kv.1 == "unlock" then (kv.1, pairsToTups (sortPairs ul)) else kv
      some (pairsToTups (sortPairs entries2))
    | _ => Option.none
  | _ => Option.none

/-- `orderTxn` applied across the block data, keeping transaction ids. -/
def orderDataEntries : List (String × PyVal) → Option (List (String × PyVal))
  | [] => some []
  | (tid, t) :: rest =>
    match orderTxn t, orderDataEntries rest with
    | some t2, some rest2 => some ((tid, t2) :: rest2)
    | _, _ => Option.none

/-- Model of `Block.__set_order_data`'s computation: order every transaction,
then sort the collection of ordered transactions by transaction id. -/
def orderData (data : List (String × PyVal)) : Option PyVal :=
  (orderDataEntries data).map fun l => pairsToTups (sortPairs l)

/-! ## Blocks (`src/blocks/block.py`) -/

/-- The `Block` object.  `difficulty` is read from the info file at
construction (`access.get_mining_difficulty`); `ordered_data` is the cache
assigned right before verifying or mining. -/
structure Block where
  block_id : Option String
  previous_block_id : String
  timestamp : Option String
  data : List (String × PyVal)
  version : PyVal
  mining_proof : Option Nat
  difficulty : Nat
  ordered_data : Option PyVal

/-- Python truthiness of the `mining_proof` field: `None` and `0` are falsy. -/
def proofTruthy : Option Nat → Bool
  | Option.none => false
  | some n => n != 0

/-- Python truthiness of the `ordered_data` cache (an empty list is falsy). -/
def orderedTruthy : Option PyVal → Bool
  | Option.none => false
  | some (.list xs) => !xs.isEmpty
  | some _ => true

/-- `Block.__set_order_data`: fill the `ordered_data` cache when it is falsy.
`Option.none` models the exception on ill-formed transaction data. -/
def setOrderData (b : Block) : Option Block :=
  if orderedTruthy b.ordered_data then some b
  else (orderData b.data).map fun od => { b with ordered_data := some od }

/-- Rendering of the `ordered_data` field by `str` inside `format`. -/
def orderedDataStr : Option PyVal → String
  | Option.none => "None"
  | some v => pyStr v

/-- `Block.__get_mining_data`: the string
`format(previous_block_id, ordered_data, version)`. -/
def getMiningData (b : Block) : String :=
  b.previous_block_id ++ orderedDataStr b.ordered_data ++ pyStr b.version

/-- Rendering of a nonce appended to the payload (`str(nonce)`; the
`mining_proof` field may be `None`, which `str` renders as `None`). -/
def proofStr : Option Nat → String
  | Option.none => "None"
  | some n => toString n

/-- `Block.__compose_hash`: SHA-256 hex digest of the mining payload with the
nonce appended. -/
def composeHash (b : Block) (nonce : Option Nat) : String :=
  sha256hex (getMiningData b ++ proofStr nonce)

/-- The target string `''.zfill(difficulty)`: `difficulty` zeros. -/
def zfillStr (d : Nat) : String := String.mk (List.replicate d (Char.ofNat 48))

/-- Python `s.startswith(pre)`. -/
def pyStartsWith (pre s : String) : Bool := pre.data.isPrefixOf s.data

/-- Whether hashing a block's mining payload with nonce `n` meets the
block's difficulty target. -/
def meetsTarget (b : Block) (n : Nat) : Bool :=
  pyStartsWith (zfillStr b.difficulty) (composeHash b (some n))

/-- The `while not target_hash.startswith(goal)` search of `Block.mine`,
with explicit fuel for the unbounded Python loop.  At entry the loop
variable `nonce` is `0` and `target_hash` is the empty string; each
iteration first increments the nonce, then hashes. -/
def mineLoop (payload goal : String) : Nat → Nat → String → Option Nat
  | 0, nonce, th => if pyStartsWith goal th then some nonce else Option.none
  | fuel + 1, nonce, th =>
    if pyStartsWith goal th then some nonce
    else mineLoop payload goal fuel (nonce + 1) (sha256hex (payload ++ toString (nonce + 1)))

/-- `Block.mine`: no-op on a block whose `mining_proof` is truthy; otherwise
order the data, run the proof-of-work search, then set `mining_proof`,
`timestamp` (the current time `now`) and `block_id` (SHA-256 of the mining
payload, without the nonce).  `Option.none` models a run that raises or does
not terminate within `fuel` iterations. -/
def Block.mine (b : Block) (now : String) (fuel : Nat) : Option Block :=
  if proofTruthy b.mining_proof then some b
  else
    (setOrderData b).bind fun b2 =>
      let goal := zfillStr b2.difficulty
      (mineLoop (getMiningData b2) goal fuel 0 "").map fun nonce =>
        { b2 with
          mining_proof := some nonce
          timestamp := some now
          block_id := some (sha256hex (getMiningData b2)) }

/-- `Block.verify`: order the data, recompute the proof-of-work hash with
the recorded `mining_proof`, and compare against the difficulty target.
Returns the boolean result together with the block (whose `ordered_data`
cache the call fills); it touches no ledger state. -/
def Block.verify (b : Block) : Option (Bool × Block) :=
  (setOrderData b).map fun b2 =>
    (pyStartsWith (zfillStr b2.difficulty) (composeHash b2 b2.mining_proof), b2)

/-- A block with its `ordered_data` cache filled (the object `setOrderData`
returns on the compute path). -/
def setOrdered (b : Block) (od : PyVal) : Block := { b with ordered_data := some od }

/-- The block a successful `mine` run returns: the ordered cache, the found
nonce, the timestamp, and the id hash of the nonce-free payload. -/
def minedBlock (b : Block) (od : PyVal) (nonce : Nat) (now : String) : Block :=
  { b with
    ordered_data := some od, mining_proof := some nonce, timestamp := some now,
    block_id := some (sha256hex (getMiningData (setOrdered b od))) }

/-- Recomputation of the block id from a block's own fields, the procedure
`__set_block_id` applies: SHA-256 over
`previous_block_id ++ str(ordered data) ++ str(version)`. -/
def recomputeBlockId (b : Block) : Option String :=
  (orderData b.data).map fun od =>
    sha256hex (b.previous_block_id ++ pyRepr od ++ pyStr b.version)

/-- The block id the claim describes, following its words: the SHA-256 hex
digest of the canonical encoding of the tuple `(previous_block_id, ordered
data, version, mining_proof)` — i.e. with `str(mining_proof)` appended to
the encoded payload.  (Refinement target; the code's procedure is
`recomputeBlockId`.) -/
def claimBlockIdSpec (b : Block) : Option String :=
  (orderData b.data).map fun od =>
    sha256hex (b.previous_block_id ++ pyRepr od ++ pyStr b.version ++ proofStr b.mining_proof)

/-! ## The ledger state (`data/` files: info file, unspent-outputs file, block files) -/

/-- An input reference / unspent-output record:
`(transaction_id, block_id, output_index, amount)`. -/
structure TxnInput where
  transaction_id : String
  block_id : String
  output_index : Nat
  amount : Rat
deriving DecidableEq

/-- A transaction output as stored inside an archived block file.  The
`spent` flag embeds the presence of the `spent: True` key that
`find_output` writes into the record (absent initially, i.e. `false`). -/
structure StoredOutput where
  receiver_address : String
  amount : Rat
  spent_transaction_id : String
  spent : Bool
deriving DecidableEq

/-- The part of an archived transaction `find_output` reads: its `outputs`
array. -/
structure StoredTxn where
  outputs : List StoredOutput
deriving DecidableEq

/-- An archived block file; `find_output` reads its `data` mapping. -/
structure BlockRec where
  data : List (String × StoredTxn)
deriving DecidableEq

/-- The persistent ledger state: the per-block files of `data/blockchain/`,
the unspent-outputs file, and the info file's wallet balance and chain tip
(`previous_block_id`). -/
structure Ledger where
  blocks : List (String × BlockRec)
  unspent : List TxnInput
  balance : Rat
  previous_block_id : String
deriving DecidableEq

/-- First value bound to a key in an association list. -/
def alookup {β : Type} (k : String) : List (String × β) → Option β
  | [] => Option.none
  | (k2, v) :: rest => if k2 = k then some v else alookup k rest

/-- Update the first binding of a key in an association list (Python dict
assignment on an existing key). -/
def updAssoc {β : Type} (k : String) (f : β → β) : List (String × β) → List (String × β)
  | [] => []
  | (k2, v) :: rest => if k2 = k then (k2, f v) :: rest else (k2, v) :: updAssoc k f rest

/-- Update the element at an index of a list, if it exists. -/
def updNth {α : Type} (f : α → α) : Nat → List α → List α
  | _, [] => []
  | 0, x :: xs => f x :: xs
  | n + 1, x :: xs => x :: updNth f n xs

/-- Pure read of the output referenced by `(transaction_id, block_id,
output_index)` in the archived blocks. -/
def lookupOut (σ : Ledger) (tid bid : String) (idx : Nat) : Option StoredOutput :=
  (alookup bid σ.blocks).bind fun blk =>
    (alookup tid blk.data).bind fun t => t.outputs.get? idx

/-- `target_output[spent] = True` on one output record. -/
def setSpentTrue (o : StoredOutput) : StoredOutput := { o with spent := true }

/-- The transaction record with the output at `idx` marked spent. -/
def markTxnAt (idx : Nat) (t : StoredTxn) : StoredTxn :=
  { t with outputs := updNth setSpentTrue idx t.outputs }

/-- The block record with one transaction's output marked spent. -/
def markBlockAt (tid : String) (idx : Nat) (blk : BlockRec) : BlockRec :=
  { blk with data := updAssoc tid (markTxnAt idx) blk.data }

/-- Set the `spent` key of one archived output to `True` (the write
`find_output` persists back into the block file). -/
def markSpent (tid bid : String) (idx : Nat) (σ : Ledger) : Ledger :=
  { σ with blocks := updAssoc bid (markBlockAt tid idx) σ.blocks }

/-- `data_access.find_output`: open the block file (`Option.none` models the
uncaught `FileNotFoundError` when the block id has no file), look up the
transaction and the output index (the caught `KeyError`/`IndexError` paths
return `(None, unchanged ledger)`), and on success persist the output's
`spent: True` mark and return the marked output. -/
def find_output (tid bid : String) (idx : Nat) (σ : Ledger) :
    Option (Option StoredOutput × Ledger) :=
  match alookup bid σ.blocks with
  | Option.none => Option.none
  | some blk =>
    match (alookup tid blk.data).bind (fun t => t.outputs.get? idx) with
    | Option.none => some (Option.none, σ)
    | some out => some (some (setSpentTrue out), markSpent tid bid idx σ)

/-! ## Transactions (`src/transactions/transaction.py`) -/

/-- The `unlock` mapping of a finalized transaction. -/
structure Unlock where
  sender_public_key : String
  signature : String
deriving DecidableEq

/-- An output of the transaction being built or verified
(`receiver_address`, `amount`, `spent_transaction_id`; the builder's
outputs carry an empty `spent_transaction_id`). -/
structure OutRec where
  receiver_address : String
  amount : Rat
  spent_transaction_id : String
deriving DecidableEq

/-- The `Transaction` object.  An un-finalized transaction has
`transaction_id = Option.none` and an empty-content `unlock`. -/
structure Transaction where
  transaction_id : Option String
  unlock : Unlock
  input_count : Nat
  inputs : List TxnInput
  output_count : Nat
  outputs : List OutRec
deriving DecidableEq

/-- Python truthiness of the `transaction_id` field. -/
def tidTruthy : Option String → Bool
  | Option.none => false
  | some s => !(s == "")

def optStrPy : Option String → PyVal
  | Option.none => .pnone
  | some s => .str s

/-- An input reference as its Python dict. -/
def TxnInput.toPy (i : TxnInput) : PyVal :=
  .dict [("transaction_id", .str i.transaction_id), ("block_id", .str i.block_id),
         ("output_index", .int i.output_index), ("amount", .flt i.amount)]

/-- An output as its Python dict. -/
def OutRec.toPy (o : OutRec) : PyVal :=
  .dict [("receiver_address", .str o.receiver_address), ("amount", .flt o.amount),
         ("spent_transaction_id", .str o.spent_transaction_id)]

/-- `dict(self)` of a transaction in `__iter__` order, with the `unlock`
entry emptied as `__compose_message` does.  (`__set_transaction_id` hashes
`dict(self)` verbatim, but it only runs on a transaction being built, whose
`unlock` is still the empty dict, so the same rendering serves both.) -/
def Transaction.toPyMsg (t : Transaction) : PyVal :=
  .dict [("transaction_id", optStrPy t.transaction_id), ("unlock", .dict []),
         ("input_count", .int t.input_count),
         ("inputs", .list (t.inputs.map TxnInput.toPy)),
         ("output_count", .int t.output_count),
         ("outputs", .list (t.outputs.map OutRec.toPy))]

/-- `Transaction.__set_transaction_id`: SHA-256 over `str(dict(self))`. -/
def setTransactionId (t : Transaction) : Transaction :=
  { t with transaction_id := some (sha256hex (pyRepr t.toPyMsg)) }

/-- `Transaction.__compose_message`: the byte-string message over the
transaction data, with `unlock` left out and the transaction id fixed
(assigning it first when it is still falsy).  Returns the message together
with the possibly id-assigned object. -/
def composeMessage (t : Transaction) : String × Transaction :=
  let t2 := if tidTruthy t.transaction_id then t else setTransactionId t
  (pyRepr t2.toPyMsg, t2)

/-- The `for t_input in self.inputs` loop of `Transaction.verify`: look up
each referenced output through `find_output`, stopping at the first input
whose output is missing, is not addressed to the sender, or already carries
a `spent_transaction_id`.  `Option.none` models the uncaught
`FileNotFoundError` on a missing block file. -/
def checkInputs (sender : String) : List TxnInput → Ledger → Option (Bool × Option TxnInput × Ledger)
  | [], σ => some (true, Option.none, σ)
  | i :: rest, σ =>
    match find_output i.transaction_id i.block_id i.output_index σ with
    | Option.none => Option.none
    | some (Option.none, σ2) => some (false, some i, σ2)
    | some (some out, σ2) =>
      if out.receiver_address != sender then some (false, some i, σ2)
      else if out.spent_transaction_id != "" then some (false, some i, σ2)
      else checkInputs sender rest σ2

/-- `Transaction.verify`.  `sigValid pk sig msg` abstracts the ECDSA stack
(`b64decode`, `VerifyingKey.from_string(curve=NIST256p)`,
`verify_key.verify(sig, msg, hashfunc=sha256)`): it returns `true` when the
signature verifies and `false` for the `BadSignatureError` path.  The
result is `(authentic, offender, ledger)`. -/
def Transaction.verify (sigValid : String → String → String → Bool) (t : Transaction)
    (σ : Ledger) : Option (Bool × Option TxnInput × Ledger) :=
  let sender := t.unlock.sender_public_key
  if sigValid sender t.unlock.signature (composeMessage t).1 then
    checkInputs sender t.inputs σ
  else some (false, Option.none, σ)

/-! ## Specification views of verification (pure reads over the ledger) -/

/-- The spent flag of one archived output, as a pure read. -/
def spentView (σ : Ledger) (tid bid : String) (idx : Nat) : Option Bool :=
  (lookupOut σ tid bid idx).map (fun o => o.spent)

/-- The fields of one archived output that the three verification checks
read (receiver address and `spent_transaction_id`), as a pure read. -/
def viewCheck (σ : Ledger) (tid bid : String) (idx : Nat) : Option (String × String) :=
  (lookupOut σ tid bid idx).map (fun o => (o.receiver_address, o.spent_transaction_id))

/-- Whether one input passes the existence, ownership and unspent checks
against a ledger. -/
def passInput (sender : String) (σ : Ledger) (i : TxnInput) : Bool :=
  match lookupOut σ i.transaction_id i.block_id i.output_index with
  | Option.none => false
  | some o => o.receiver_address == sender && o.spent_transaction_id == ""

/-- The inputs whose referenced output the verification loop actually looks
up and finds (the processed prefix, cut at the first failing input). -/
def foundRefs (sender : String) : List TxnInput → Ledger → List TxnInput
  | [], _ => []
  | i :: rest, σ =>
    match find_output i.transaction_id i.block_id i.output_index σ with
    | Option.none => []
    | some (Option.none, _) => []
    | some (some out, σ2) =>
      if out.receiver_address == sender && out.spent_transaction_id == "" then
        i :: foundRefs sender rest σ2
      else [i]

/-! ## Input selection and output construction
(`src/data_access.get_inputs`, `Transaction.add_output`) -/

/-- The greedy accumulation loop of `get_inputs`: take unspent records in
file order, stopping as soon as the running total covers `amount`. -/
def selectInputs (amount : Rat) : List TxnInput → Rat → Rat × List TxnInput
  | [], total => (total, [])
  | i :: rest, total =>
    let t2 := total + i.amount
    if amount ≤ t2 then (t2, [i])
    else
      let r := selectInputs amount rest t2
      (r.1, i :: r.2)

/-- `data_access.get_inputs`: when the wallet balance covers `amount`,
greedily select unspent records, rewrite the unspent file without the
selected records (`[i for i in all_inputs if i not in inputs]`), and debit
the balance by the selected total; otherwise return `(0, [])` and leave the
ledger untouched. -/
def get_inputs (amount : Rat) (σ : Ledger) : (Rat × List TxnInput) × Ledger :=
  if amount ≤ σ.balance then
    let r := selectInputs amount σ.unspent 0
    ((r.1, r.2),
     { σ with
       unspent := σ.unspent.filter (fun i => !(r.2.contains i)),
       balance := σ.balance - r.1 })
  else ((0, []), σ)

/-- `Transaction.add_output`: fetch covering inputs, raise
`ValueError(Insufficient Funds)` when the returned total is falsy, and
otherwise append the inputs, the payment output, and — when the selected
total exceeds `amount` — the refund output back to the sender.  The first
component is the normal/exceptional outcome; the transaction and ledger
after the call follow. -/
def Transaction.add_output (t : Transaction) (sender receiver : String) (amount : Rat)
    (σ : Ledger) : Except String Unit × Transaction × Ledger :=
  let r := get_inputs amount σ
  let total := r.1.1
  let ins := r.1.2
  if total == 0 then (.error "Insufficient Funds", t, r.2)
  else
    (.ok (),
     { t with
       inputs := t.inputs ++ ins,
       input_count := t.input_count + ins.length,
       outputs := t.outputs ++ ({ receiver_address := receiver, amount := amount,
                                  spent_transaction_id := "" } ::
         (if amount < total then
            [{ receiver_address := sender, amount := total - amount,
               spent_transaction_id := "" }]
          else [])),
       output_count := t.output_count + 1 + (if amount < total then 1 else 0) },
     r.2)

/-- Sum of the amounts of a list of inputs. -/
def sumInAmounts (l : List TxnInput) : Rat := (l.map (fun i => i.amount)).sum

/-- Sum of the amounts of a list of outputs. -/
def sumOutAmounts (l : List OutRec) : Rat := (l.map (fun o => o.amount)).sum

/-! ## Block verification against the ledger (claim C5) -/

/-- `Block.verify` at the ledger boundary: the method body performs no
store call, so the ledger state passes through unchanged. -/
def Block.verifyWithLedger (b : Block) (σ : Ledger) : Option (Bool × Ledger) :=
  (Block.verify b).map fun r => (r.1, σ)

/-- Modelled from the spec (§4.5, claim C5): on success, advance the Ledger
Store's chain tip to this block's `block_id`; on failure leave ledger state
unchanged.  Refinement target for the code's `Block.verifyWithLedger`. -/
def claimVerifySpec (b : Block) (σ : Ledger) : Option (Bool × Ledger) :=
  (Block.verify b).map fun r =>
    if r.1 then (true, { σ with previous_block_id := (b.block_id).getD "" })
    else (false, σ)

/-! ## Concrete scenarios used by counterexamples and witnesses -/

/-- A fresh difficulty-1 block with empty data, previous block id `p5` and
version `v`: its mining payload is `p5[]v`, whose nonce-0 digest already
meets the difficulty-1 target. -/
def cexBlock1 : Block :=
  { block_id := Option.none, previous_block_id := "p5", timestamp := Option.none,
    data := [], version := .str "v", mining_proof := Option.none, difficulty := 1,
    ordered_data := Option.none }

/-- The block `Block.mine` produces from `cexBlock1`. -/
def cexMined1 : Block := (Block.mine cexBlock1 "ts" 64).getD cexBlock1

/-- `cexBlock1` with `mining_proof` already set to the integer `0`. -/
def cexBlockZero : Block := { cexBlock1 with mining_proof := some 0 }

/-- Block data whose single transaction carries an output dict with keys
inserted in the order `x, y` (and an unlock dict in the order `b, a`). -/
def dataOrderA : List (String × PyVal) :=
  [("t1", .dict [("unlock", .dict [("b", .int 1), ("a", .int 2)]),
                 ("outputs", .list [.dict [("x", .int 1), ("y", .int 2)]])])]

/-- The same key/value content as `dataOrderA` with the unlock entries and
the nested output dict's entries inserted in the opposite order. -/
def dataOrderB : List (String × PyVal) :=
  [("t1", .dict [("unlock", .dict [("a", .int 2), ("b", .int 1)]),
                 ("outputs", .list [.dict [("y", .int 2), ("x", .int 1)]])])]

/-- A difficulty-0 block over `dataOrderA`. -/
def blockOrderA : Block :=
  { block_id := Option.none, previous_block_id := "p", timestamp := Option.none,
    data := dataOrderA, version := .str "v", mining_proof := some 7, difficulty := 0,
    ordered_data := Option.none }

/-- A difficulty-0 block over `dataOrderB`. -/
def blockOrderB : Block := { blockOrderA with data := dataOrderB }

/-- A difficulty-0 block with its `block_id` set, for the chain-tip claim. -/
def cexTipBlock : Block := { blockOrderA with block_id := some "Y" }

/-- A ledger holding one archived block `b1` whose transaction `t1` has a
single unspent output addressed to `alice`; chain tip `X`. -/
def ledger1 : Ledger :=
  { blocks := [("b1", { data := [("t1",
      { outputs := [{ receiver_address := "alice", amount := 25,
                      spent_transaction_id := "", spent := false }] })] })],
    unspent := [], balance := 0, previous_block_id := "X" }

/-- The input reference to that output. -/
def inputRef1 : TxnInput :=
  { transaction_id := "t1", block_id := "b1", output_index := 0, amount := 25 }

/-- A finalized transaction of `alice` consuming `inputRef1`. -/
def tnxA : Transaction :=
  { transaction_id := some "idA", unlock := { sender_public_key := "alice", signature := "sA" },
    input_count := 1, inputs := [inputRef1], output_count := 0, outputs := [] }

/-- A second finalized transaction of `alice` consuming the same output. -/
def tnxB : Transaction :=
  { transaction_id := some "idB", unlock := { sender_public_key := "alice", signature := "sB" },
    input_count := 1, inputs := [inputRef1], output_count := 0, outputs := [] }

/-- A transaction whose sender is not the output's receiver. -/
def tnxC : Transaction :=
  { transaction_id := some "idC", unlock := { sender_public_key := "carol", signature := "sC" },
    input_count := 1, inputs := [inputRef1], output_count := 0, outputs := [] }

/-- The signature oracle of an honestly signed transaction: the ECDSA check
succeeds. -/
def svAll : String → String → String → Bool := fun _ _ _ => true

/-- The signature oracle of a tampered transaction: the ECDSA check raises
`BadSignatureError`. -/
def svNone : String → String → String → Bool := fun _ _ _ => false

/-- The ledger after `find_output` has marked `inputRef1`'s output spent. -/
def ledger1Marked : Ledger := markSpent "t1" "b1" 0 ledger1

/-- A wallet ledger with one unspent record of amount 25 and balance 25. -/
def ledgerW : Ledger :=
  { blocks := [], unspent := [inputRef1], balance := 25, previous_block_id := "" }

/-- An empty transaction being built. -/
def tnx0 : Transaction :=
  { transaction_id := Option.none, unlock := { sender_public_key := "", signature := "" },
    input_count := 0, inputs := [], output_count := 0, outputs := [] }

/-- The transaction `add_output` builds in the witness scenario. -/
def tnxW : Transaction := (tnx0.add_output "s" "r" 10 ledgerW).2.1

/-- The ledger after the witness `add_output` call. -/
def ledgerW2 : Ledger := (tnx0.add_output "s" "r" 10 ledgerW).2.2

/-- Two-transaction block data in one insertion order. -/
def permDataA : List (String × PyVal) :=
  [("a", .dict [("unlock", .dict [])]), ("b", .dict [("unlock", .dict [])])]

/-- The same block data inserted in the opposite order. -/
def permDataB : List (String × PyVal) :=
  [("b", .dict [("unlock", .dict [])]), ("a", .dict [("unlock", .dict [])])]

end DeltaABC

namespace DeltaABC

set_option maxRecDepth 10000

/-- SHA-256 test vector: the empty string. -/
theorem sha256hex_empty :
    sha256hex "" = "e3b0c44298fc1c149afbf4c8996fb92427ae41e4649b934ca495991b7852b855" := by
  decide

/-- SHA-256 test vector: "abc". -/
theorem sha256hex_abc :
    sha256hex "abc" = "ba7816bf8f01cfea414140de5dae2223b00361a396177a9cb410ff61f20015ad" := by
  decide

/-! ### Mining-loop lemmas -/

/-- The difficulty-0 target (the empty string) is a prefix of everything. -/
theorem pyStartsWith_zfill_zero (s : String) : pyStartsWith (zfillStr 0) s = true := by
  obtain ⟨l⟩ := s
  cases l <;> rfl

/-- A non-trivial target is not a prefix of the empty initial `target_hash`. -/
theorem pyStartsWith_zfill_succ_empty (d : Nat) :
    pyStartsWith (zfillStr (d + 1)) "" = false := rfl

/-- At difficulty 0 the mining loop exits immediately with the initial nonce. -/
theorem mineLoop_zfill_zero (payload : String) (fuel nonce : Nat) (th : String) :
    mineLoop payload (zfillStr 0) fuel nonce th = some nonce := by
  cases fuel <;> simp [mineLoop, pyStartsWith_zfill_zero]

/-- Soundness of the steady state of the mining loop: starting at a nonce
at least 1 whose digest is the current `target_hash`, with all earlier
nonces from 1 known to fail, a successful exit returns the least nonce from
1 whose digest meets the target. -/
theorem mineLoop_sound (payload goal : String) :
    ∀ (fuel nonce r : Nat), 1 ≤ nonce →
      (∀ m, 1 ≤ m → m < nonce → pyStartsWith goal (sha256hex (payload ++ toString m)) = false) →
      mineLoop payload goal fuel nonce (sha256hex (payload ++ toString nonce)) = some r →
      1 ≤ r ∧ pyStartsWith goal (sha256hex (payload ++ toString r)) = true ∧
        ∀ m, 1 ≤ m → m < r → pyStartsWith goal (sha256hex (payload ++ toString m)) = false := by
  intro fuel
  induction fuel with
  | zero =>
    intro nonce r h1 hprev hrun
    by_cases hP : pyStartsWith goal (sha256hex (payload ++ toString nonce)) = true
    · simp [mineLoop, hP] at hrun
      exact hrun ▸ ⟨h1, hP, hprev⟩
    · simp [mineLoop, hP] at hrun
  | succ f ih =>
    intro nonce r h1 hprev hrun
    by_cases hP : pyStartsWith goal (sha256hex (payload ++ toString nonce)) = true
    · simp [mineLoop, hP] at hrun
      exact hrun ▸ ⟨h1, hP, hprev⟩
    · simp only [mineLoop, hP, if_false, Bool.not_eq_true] at hrun
      refine ih (nonce + 1) r (by omega) ?_ hrun
      intro m hm1 hmlt
      rcases Nat.lt_or_ge m nonce with hlt | hge
      · exact hprev m hm1 hlt
      · have : m = nonce := by omega
        subst this
        simpa using hP

/-- Dissection of a successful `Block.mine` run on an unmined block (falsy
`mining_proof`, empty `ordered_data` cache, as `__init__` leaves it):
the data was ordered, the loop found a nonce, and the result block carries
that nonce, the timestamp, and the hash of the nonce-free payload. -/
theorem mine_dissect (b : Block) (now : String) (fuel : Nat) (b2 : Block)
    (hp : proofTruthy b.mining_proof = false) (hc : b.ordered_data = Option.none)
    (hm : Block.mine b now fuel = some b2) :
    ∃ od nonce,
      orderData b.data = some od ∧
      mineLoop (getMiningData (setOrdered b od)) (zfillStr b.difficulty) fuel 0 "" =
        some nonce ∧
      b2 = minedBlock b od nonce now := by
  unfold Block.mine at hm
  rw [hp] at hm
  simp only [Bool.false_eq_true, if_false] at hm
  unfold setOrderData at hm
  rw [hc] at hm
  simp only [orderedTruthy, Bool.false_eq_true, if_false] at hm
  cases ho : orderData b.data with
  | none => rw [ho] at hm; simp at hm
  | some od =>
    rw [ho] at hm
    simp only [Option.map_some', Option.some_bind] at hm
    have hm2 : (mineLoop (getMiningData (setOrdered b od)) (zfillStr b.difficulty)
        fuel 0 "").map (fun nonce => minedBlock b od nonce now) = some b2 := hm
    cases hl : mineLoop (getMiningData (setOrdered b od)) (zfillStr b.difficulty) fuel 0 "" with
    | none => rw [hl] at hm2; simp at hm2
    | some nonce =>
      rw [hl] at hm2
      simp only [Option.map_some', Option.some_inj] at hm2
      exact ⟨od, nonce, rfl, hl, hm2.symm⟩

/-- The mining payload ignores the fields `mine` fills in afterwards. -/
theorem getMiningData_after_mine (b : Block) (od : PyVal) (nonce : Nat) (now : String) :
    getMiningData (minedBlock b od nonce now) = getMiningData (setOrdered b od) := rfl

/-! ### Claim C1 — what the block id hashes -/

/-- C1 (counterexample): for the concretely mined block `cexMined1`, the
stored `block_id` differs from the SHA-256 of the canonical encoding of the
tuple with `mining_proof` included, which the claim prescribes. -/
theorem block_id_excludes_mining_proof_cex :
    Block.mine cexBlock1 "ts" 64 = some cexMined1 ∧
    (claimBlockIdSpec cexMined1).isSome = true ∧
    claimBlockIdSpec cexMined1 ≠ cexMined1.block_id := by
  refine ⟨rfl, by decide, by decide⟩

/-- C1 (amended): for every mined block, `block_id` is the SHA-256 hex
digest of the canonical encoding of `(previous_block_id, ordered data,
version)` — the `mining_proof` is not part of the hash input — and
recomputing the id from the mined block's own fields yields the stored
value. -/
theorem block_id_hashes_payload_without_proof (b : Block) (now : String) (fuel : Nat)
    (b2 : Block) (hp : proofTruthy b.mining_proof = false)
    (hc : b.ordered_data = Option.none) (hm : Block.mine b now fuel = some b2) :
    (∃ od, orderData b.data = some od ∧
      b2.block_id = some (sha256hex (b.previous_block_id ++ pyRepr od ++ pyStr b.version))) ∧
    recomputeBlockId b2 = b2.block_id := by
  obtain ⟨od, nonce, ho, hl, hb2⟩ := mine_dissect b now fuel b2 hp hc hm
  have hodlist : ∃ l, od = pairsToTups l := by
    unfold orderData at ho
    cases he : orderDataEntries b.data with
    | none => rw [he] at ho; simp at ho
    | some l =>
      rw [he] at ho
      simp only [Option.map_some', Option.some_inj] at ho
      exact ⟨sortPairs l, ho.symm⟩
  obtain ⟨l, hodl⟩ := hodlist
  have hps : pyStr od = pyRepr od := by rw [hodl]; rfl
  have hmd : getMiningData (setOrdered b od) =
      b.previous_block_id ++ pyRepr od ++ pyStr b.version := by
    show b.previous_block_id ++ pyStr od ++ pyStr b.version = _
    rw [hps]
  constructor
  · refine ⟨od, ho, ?_⟩
    rw [hb2]
    show some (sha256hex (getMiningData (setOrdered b od))) = _
    rw [hmd]
  · rw [hb2]
    unfold recomputeBlockId
    have hdata : (minedBlock b od nonce now).data = b.data := rfl
    rw [hdata, ho]
    simp only [Option.map_some']
    have hbid : (minedBlock b od nonce now).block_id =
        some (sha256hex (getMiningData (setOrdered b od))) := rfl
    have hprev : (minedBlock b od nonce now).previous_block_id = b.previous_block_id := rfl
    have hver : (minedBlock b od nonce now).version = b.version := rfl
    rw [hbid, hprev, hver, hmd]

/-- C1 (witness): the amended statement holds at the concrete mined block
`cexMined1`. -/
theorem block_id_hashes_payload_without_proof_witness :
    (∃ od, orderData cexBlock1.data = some od ∧
      cexMined1.block_id = some (sha256hex (cexBlock1.previous_block_id ++ pyRepr od ++
        pyStr cexBlock1.version))) ∧
    recomputeBlockId cexMined1 = cexMined1.block_id :=
  block_id_hashes_payload_without_proof cexBlock1 "ts" 64 cexMined1 rfl rfl rfl

/-! ### Claim C2 — where the nonce search starts -/

/-- C2 (counterexample): for the concrete block `cexBlock1` (difficulty 1)
the digest at nonce 0 already meets the target, so the claimed least nonce
from 0 is 0; yet `mine` sets `mining_proof = 10`. -/
theorem mine_skips_nonce_zero_cex :
    meetsTarget cexMined1 0 = true ∧
    Block.mine cexBlock1 "ts" 64 = some cexMined1 ∧
    cexMined1.mining_proof = some 10 ∧ (10 : Nat) ≠ 0 := by
  refine ⟨by decide, rfl, by decide, by decide⟩

/-- C2 (amended): on an unmined block, `mine` tries nonces in increasing
order starting from 1 — nonce 0 is never tested — and sets `mining_proof`
to the least nonce from 1 whose digest meets the difficulty target; at
difficulty 0 it sets `mining_proof = 0` without any digest test. -/
theorem mine_searches_from_nonce_one (b : Block) (now : String) (fuel : Nat) (b2 : Block)
    (hp : proofTruthy b.mining_proof = false) (hc : b.ordered_data = Option.none)
    (hm : Block.mine b now fuel = some b2) :
    (b.difficulty = 0 → b2.mining_proof = some 0) ∧
    (1 ≤ b.difficulty → ∃ n, b2.mining_proof = some n ∧ 1 ≤ n ∧ meetsTarget b2 n = true ∧
      ∀ m, 1 ≤ m → m < n → meetsTarget b2 m = false) := by
  obtain ⟨od, nonce, ho, hl, hb2⟩ := mine_dissect b now fuel b2 hp hc hm
  set payload := getMiningData (setOrdered b od) with hpay
  have hmt : ∀ k, meetsTarget b2 k =
      pyStartsWith (zfillStr b.difficulty) (sha256hex (payload ++ toString k)) := by
    intro k
    rw [hb2]
    rfl
  constructor
  · intro hd0
    rw [hd0, mineLoop_zfill_zero] at hl
    have : (0 : Nat) = nonce := Option.some.inj hl
    rw [hb2]
    show some nonce = some 0
    rw [← this]
  · intro hd1
    obtain ⟨d, hd⟩ : ∃ d, b.difficulty = d + 1 := ⟨b.difficulty - 1, by omega⟩
    rw [hd] at hl
    cases fuel with
    | zero =>
      rw [show mineLoop payload (zfillStr (d + 1)) 0 0 "" = Option.none from by
        simp [mineLoop, pyStartsWith_zfill_succ_empty]] at hl
      cases hl
    | succ f =>
      have hstep : mineLoop payload (zfillStr (d + 1)) (f + 1) 0 "" =
          mineLoop payload (zfillStr (d + 1)) f 1 (sha256hex (payload ++ toString 1)) := by
        simp [mineLoop, pyStartsWith_zfill_succ_empty]
      rw [hstep] at hl
      obtain ⟨h1, hgood, hleast⟩ :=
        mineLoop_sound payload (zfillStr (d + 1)) f 1 nonce (by omega)
          (by intro m hm1 hmlt; omega) hl
      refine ⟨nonce, by rw [hb2]; rfl, h1, ?_, ?_⟩
      · rw [hmt, hd]; exact hgood
      · intro m hm1 hmlt
        rw [hmt, hd]
        exact hleast m hm1 hmlt

/-- C2 (witness): the amended statement holds at the concrete difficulty-1
block `cexBlock1`. -/
theorem mine_searches_from_nonce_one_witness :
    1 ≤ cexBlock1.difficulty ∧
    (∃ n, cexMined1.mining_proof = some n ∧ 1 ≤ n ∧ meetsTarget cexMined1 n = true ∧
      ∀ m, 1 ≤ m → m < n → meetsTarget cexMined1 m = false) :=
  ⟨by decide,
    (mine_searches_from_nonce_one cexBlock1 "ts" 64 cexMined1 rfl rfl rfl).2 (by decide)⟩

/-! ### Claim C9 — when re-mining is a no-op -/

/-- C9 (counterexample): a block whose `mining_proof` is already set — to
the integer 0 — is re-mined: the second `mine` call changes `mining_proof`
to 10, so the call is not a no-op. -/
theorem mine_remines_zero_proof_cex :
    cexBlockZero.mining_proof = some 0 ∧
    (Block.mine cexBlockZero "ts" 64).map (fun b => b.mining_proof) = some (some 10) ∧
    some 10 ≠ cexBlockZero.mining_proof := by
  refine ⟨rfl, by decide, by decide⟩

/-- C9 (amended): `mine` is a no-op — returning the block with every field
unchanged — exactly on blocks whose `mining_proof` is truthy (set and
non-zero); in particular, mining an unmined block at difficulty at least 1
and then mining the result again returns it unchanged. -/
theorem mine_noop_on_truthy_proof :
    (∀ (b : Block) (now : String) (fuel : Nat), proofTruthy b.mining_proof = true →
      Block.mine b now fuel = some b) ∧
    (∀ (b : Block) (now : String) (fuel : Nat) (b2 : Block) (now2 : String) (fuel2 : Nat),
      proofTruthy b.mining_proof = false → b.ordered_data = Option.none →
      1 ≤ b.difficulty → Block.mine b now fuel = some b2 →
      Block.mine b2 now2 fuel2 = some b2) := by
  have noop : ∀ (b : Block) (now : String) (fuel : Nat), proofTruthy b.mining_proof = true →
      Block.mine b now fuel = some b := by
    intro b now fuel h
    unfold Block.mine
    rw [h]
    simp
  refine ⟨noop, ?_⟩
  intro b now fuel b2 now2 fuel2 hp hc hd hm
  obtain ⟨n, hn, h1, _, _⟩ := (mine_searches_from_nonce_one b now fuel b2 hp hc hm).2 hd
  refine noop b2 now2 fuel2 ?_
  rw [hn]
  have hne : n ≠ 0 := by omega
  simp [proofTruthy, hne]

/-- C9 (witness): the concrete mined block `cexMined1` has a truthy proof
and a second `mine` call returns it unchanged. -/
theorem mine_noop_on_truthy_proof_witness :
    proofTruthy cexMined1.mining_proof = true ∧
    Block.mine cexMined1 "later" 5 = some cexMined1 :=
  ⟨by decide, mine_noop_on_truthy_proof.1 cexMined1 "later" 5 (by decide)⟩

/-! ### Claim C5 — block verification and the chain tip -/

/-- C5 (counterexample): a block that verifies does not advance the chain
tip: the ledger comes back unchanged with its old tip `X`, while the claim
prescribes tip `Y` (the block's id). -/
theorem verify_does_not_advance_tip_cex :
    Block.verifyWithLedger cexTipBlock ledger1 = some (true, ledger1) ∧
    claimVerifySpec cexTipBlock ledger1 =
      some (true, { ledger1 with previous_block_id := "Y" }) ∧
    ledger1.previous_block_id ≠ "Y" ∧ cexTipBlock.block_id = some "Y" := by
  refine ⟨by decide, by decide, by decide, rfl⟩

/-- C5 (amended): `Block.verify` returns `true` exactly when the recomputed
proof-of-work hash meets the difficulty target, and it leaves every part of
the ledger state unchanged whether it succeeds or fails — it never advances
the chain tip. -/
theorem block_verify_pure_no_tip_advance (b : Block) (σ : Ledger) (r : Bool) (σ2 : Ledger)
    (h : Block.verifyWithLedger b σ = some (r, σ2)) :
    σ2 = σ ∧ (r = true ↔ ∃ b2, setOrderData b = some b2 ∧
      pyStartsWith (zfillStr b2.difficulty) (composeHash b2 b2.mining_proof) = true) := by
  unfold Block.verifyWithLedger Block.verify at h
  cases hs : setOrderData b with
  | none => rw [hs] at h; simp at h
  | some b2 =>
    rw [hs] at h
    simp only [Option.map_some', Option.some_inj, Prod.mk.injEq] at h
    refine ⟨h.2.symm, ?_⟩
    constructor
    · intro hr
      refine ⟨b2, rfl, ?_⟩
      rw [h.1]
      exact hr
    · rintro ⟨b3, hb3, hch⟩
      injection hb3 with hb3
      subst hb3
      rw [h.1] at hch
      exact hch

/-- C5 (witness): the amended statement at the concrete verifying block. -/
theorem block_verify_pure_no_tip_advance_witness :
    ledger1 = ledger1 ∧ (true = true ↔ ∃ b2, setOrderData cexTipBlock = some b2 ∧
      pyStartsWith (zfillStr b2.difficulty) (composeHash b2 b2.mining_proof) = true) :=
  block_verify_pure_no_tip_advance cexTipBlock ledger1 true ledger1 (by decide)

/-! ### Association-list and spent-marking lemmas -/

/-- Looking a key up after updating a (possibly different) key. -/
theorem alookup_updAssoc {β : Type} (a k : String) (f : β → β) (l : List (String × β)) :
    alookup a (updAssoc k f l) = if k = a then (alookup a l).map f else alookup a l := by
  induction l with
  | nil => by_cases h : k = a <;> simp [alookup, updAssoc, h]
  | cons hd tl ih =>
    obtain ⟨k2, v⟩ := hd
    by_cases h1 : k2 = k
    · subst h1
      by_cases h2 : k2 = a
      · subst h2
        simp [alookup, updAssoc]
      · simp [alookup, updAssoc, h2]
    · by_cases h2 : k2 = a
      · subst h2
        have h3 : ¬k = k2 := fun h => h1 h.symm
        simp [alookup, updAssoc, h1, h3]
      · simp [alookup, updAssoc, h1, h2, ih]

/-- Indexing after an in-place update at a (possibly different) index. -/
theorem get_updNth {α : Type} (f : α → α) :
    ∀ (i j : Nat) (l : List α),
      (updNth f i l).get? j = if i = j then (l.get? j).map f else l.get? j := by
  intro i j l
  induction l generalizing i j with
  | nil => cases i <;> cases j <;> simp [updNth]
  | cons a as ih =>
    cases i with
    | zero => cases j with
      | zero => simp [updNth]
      | succ j => simp [updNth]
    | succ i =>
      cases j with
      | zero => simp [updNth]
      | succ j => simpa [updNth, Nat.succ_inj] using ih i j

/-- The read of one archived output after a spent-mark write: the same
output, with the mark applied when the coordinates coincide. -/
theorem lookupOut_markSpent (σ : Ledger) (tid bid : String) (idx : Nat)
    (t2 b2 : String) (i2 : Nat) :
    lookupOut (markSpent tid bid idx σ) t2 b2 i2 =
      if bid = b2 ∧ tid = t2 ∧ idx = i2 then (lookupOut σ t2 b2 i2).map setSpentTrue
      else lookupOut σ t2 b2 i2 := by
  unfold lookupOut markSpent
  rw [alookup_updAssoc]
  by_cases hb : bid = b2
  · subst hb
    rw [if_pos rfl]
    simp only [eq_self_iff_true, true_and]
    cases hblk : alookup bid σ.blocks with
    | none => simp
    | some blk =>
      simp only [Option.map_some', Option.some_bind]
      show ((alookup t2 (updAssoc tid (markTxnAt idx) blk.data)).bind
        fun t => t.outputs.get? i2) = _
      rw [alookup_updAssoc]
      by_cases ht : tid = t2
      · subst ht
        rw [if_pos rfl]
        simp only [eq_self_iff_true, true_and]
        cases htxn : alookup tid blk.data with
        | none => simp
        | some txn =>
          simp only [Option.map_some', Option.some_bind]
          show (updNth setSpentTrue idx txn.outputs).get? i2 = _
          rw [get_updNth]
      · rw [if_neg ht, if_neg (fun hcon => ht hcon.1)]
  · rw [if_neg hb, if_neg (fun hcon => hb hcon.1)]

/-- The check-relevant view of every archived output (receiver address and
`spent_transaction_id`) is untouched by a spent-mark write. -/
theorem viewCheck_markSpent (σ : Ledger) (tid bid : String) (idx : Nat)
    (t2 b2 : String) (i2 : Nat) :
    viewCheck (markSpent tid bid idx σ) t2 b2 i2 = viewCheck σ t2 b2 i2 := by
  unfold viewCheck
  rw [lookupOut_markSpent]
  split
  · cases lookupOut σ t2 b2 i2 <;> rfl
  · rfl

/-- A spent-mark write sets the target output's spent flag (when the
output exists). -/
theorem spentView_markSpent_set (σ : Ledger) (tid bid : String) (idx : Nat)
    (h : (lookupOut σ tid bid idx).isSome = true) :
    spentView (markSpent tid bid idx σ) tid bid idx = some true := by
  unfold spentView
  rw [lookupOut_markSpent]
  simp only [if_pos (And.intro rfl (And.intro rfl rfl))]
  cases hx : lookupOut σ tid bid idx with
  | none => rw [hx] at h; simp at h
  | some o => simp [setSpentTrue]

/-- A spent flag already set stays set across any further spent-mark
write. -/
theorem spentView_markSpent_mono (σ : Ledger) (tid bid : String) (idx : Nat)
    (t2 b2 : String) (i2 : Nat) (h : spentView σ t2 b2 i2 = some true) :
    spentView (markSpent tid bid idx σ) t2 b2 i2 = some true := by
  unfold spentView at h ⊢
  rw [lookupOut_markSpent]
  split
  · cases hx : lookupOut σ t2 b2 i2 with
    | none => rw [hx] at h; simp at h
    | some o => simp [setSpentTrue]
  · exact h

/-- The set of archived block files (by id) is untouched by a spent-mark
write. -/
theorem alookup_blocks_markSpent (σ : Ledger) (tid bid : String) (idx : Nat) (k : String) :
    (alookup k (markSpent tid bid idx σ).blocks).isSome = (alookup k σ.blocks).isSome := by
  unfold markSpent
  rw [alookup_updAssoc]
  split
  · cases alookup k σ.blocks <;> rfl
  · rfl

/-- The pass/fail verdict on one input only reads the check view. -/
theorem passInput_markSpent (s : String) (σ : Ledger) (tid bid : String) (idx : Nat)
    (i : TxnInput) : passInput s (markSpent tid bid idx σ) i = passInput s σ i := by
  unfold passInput
  rw [lookupOut_markSpent]
  by_cases hc : bid = i.block_id ∧ tid = i.transaction_id ∧ idx = i.output_index
  · rw [if_pos hc]
    cases lookupOut σ i.transaction_id i.block_id i.output_index <;> rfl
  · rw [if_neg hc]

/-- `find_output` in terms of the block-file lookup and the pure read. -/
theorem find_output_eq (tid bid : String) (idx : Nat) (σ : Ledger) :
    find_output tid bid idx σ =
      match alookup bid σ.blocks with
      | Option.none => Option.none
      | some _ =>
        match lookupOut σ tid bid idx with
        | Option.none => some (Option.none, σ)
        | some out => some (some (setSpentTrue out), markSpent tid bid idx σ) := by
  unfold find_output lookupOut
  cases alookup bid σ.blocks with
  | none => rfl
  | some blk => rfl

/-- `find?` only depends on the predicate's values on the list. -/
theorem find_congr_mem {α : Type} (p q : α → Bool) :
    ∀ (l : List α), (∀ x ∈ l, p x = q x) → l.find? p = l.find? q := by
  intro l
  induction l with
  | nil => intro _; rfl
  | cons a as ih =>
    intro h
    have ha := h a (List.mem_cons_self a as)
    by_cases hp : p a = true
    · rw [List.find?_cons_of_pos _ hp, List.find?_cons_of_pos _ (ha ▸ hp)]
    · rw [List.find?_cons_of_neg _ hp,
        List.find?_cons_of_neg _ (ha ▸ hp),
        ih (fun x hx => h x (List.mem_cons_of_mem a hx))]

/-! ### The input-checking loop of `Transaction.verify` -/

/-- One step of the loop when the block file is missing. -/
theorem checkInputs_cons_err (sender : String) (i : TxnInput) (tl : List TxnInput)
    (σ : Ledger)
    (hfo : find_output i.transaction_id i.block_id i.output_index σ = Option.none) :
    checkInputs sender (i :: tl) σ = Option.none := by
  simp only [checkInputs]
  rw [hfo]

/-- One step of the loop when the referenced output does not exist. -/
theorem checkInputs_cons_notfound (sender : String) (i : TxnInput) (tl : List TxnInput)
    (σ σm : Ledger)
    (hfo : find_output i.transaction_id i.block_id i.output_index σ =
      some (Option.none, σm)) :
    checkInputs sender (i :: tl) σ = some (false, some i, σm) := by
  simp only [checkInputs]
  rw [hfo]

/-- One step of the loop when the referenced output is found. -/
theorem checkInputs_cons_found (sender : String) (i : TxnInput) (tl : List TxnInput)
    (σ σm : Ledger) (out : StoredOutput)
    (hfo : find_output i.transaction_id i.block_id i.output_index σ =
      some (some out, σm)) :
    checkInputs sender (i :: tl) σ =
      if (out.receiver_address != sender) = true then some (false, some i, σm)
      else if (out.spent_transaction_id != "") = true then some (false, some i, σm)
      else checkInputs sender tl σm := by
  simp only [checkInputs]
  rw [hfo]

/-- One step of the looked-up-and-found bookkeeping when the block file is
missing. -/
theorem foundRefs_cons_err (sender : String) (i : TxnInput) (tl : List TxnInput)
    (σ : Ledger)
    (hfo : find_output i.transaction_id i.block_id i.output_index σ = Option.none) :
    foundRefs sender (i :: tl) σ = [] := by
  simp only [foundRefs]
  rw [hfo]

/-- One step of the looked-up-and-found bookkeeping when the output is
missing. -/
theorem foundRefs_cons_notfound (sender : String) (i : TxnInput) (tl : List TxnInput)
    (σ σm : Ledger)
    (hfo : find_output i.transaction_id i.block_id i.output_index σ =
      some (Option.none, σm)) :
    foundRefs sender (i :: tl) σ = [] := by
  simp only [foundRefs]
  rw [hfo]

/-- One step of the looked-up-and-found bookkeeping when the output is
found. -/
theorem foundRefs_cons_found (sender : String) (i : TxnInput) (tl : List TxnInput)
    (σ σm : Ledger) (out : StoredOutput)
    (hfo : find_output i.transaction_id i.block_id i.output_index σ =
      some (some out, σm)) :
    foundRefs sender (i :: tl) σ =
      if (out.receiver_address == sender && out.spent_transaction_id == "") = true
      then i :: foundRefs sender tl σm else [i] := by
  simp only [foundRefs]
  rw [hfo]


/-- Characterization of the input-checking loop: with every referenced
block file present, it returns the first input failing the checks — judged
against the initial ledger — as offender, succeeds exactly when no input
fails, and changes nothing the checks can read. -/
theorem checkInputs_run (sender : String) :
    ∀ (inputs : List TxnInput) (σ : Ledger),
      (∀ i ∈ inputs, (alookup i.block_id σ.blocks).isSome = true) →
      ∃ σ2,
        checkInputs sender inputs σ =
          some ((inputs.find? (fun j => !passInput sender σ j)).isNone,
                inputs.find? (fun j => !passInput sender σ j), σ2) ∧
        (∀ t b i, viewCheck σ2 t b i = viewCheck σ t b i) ∧
        (∀ k, (alookup k σ2.blocks).isSome = (alookup k σ.blocks).isSome) := by
  intro inputs
  induction inputs with
  | nil =>
    intro σ _
    exact ⟨σ, by simp [checkInputs, List.find?], fun _ _ _ => rfl, fun _ => rfl⟩
  | cons i rest ih =>
    intro σ hb
    obtain ⟨blk, hblk⟩ := Option.isSome_iff_exists.mp (hb i (List.mem_cons_self i rest))
    cases hout : lookupOut σ i.transaction_id i.block_id i.output_index with
    | none =>
      have hfo : find_output i.transaction_id i.block_id i.output_index σ =
          some (Option.none, σ) := by
        rw [find_output_eq, hblk, hout]
      have hpass : passInput sender σ i = false := by
        unfold passInput
        rw [hout]
      have hrun : checkInputs sender (i :: rest) σ = some (false, some i, σ) := by
        simp only [checkInputs]
        rw [hfo]
      have hfind : (i :: rest).find? (fun j => !passInput sender σ j) = some i :=
        List.find?_cons_of_pos _ (by rw [hpass]; rfl)
      refine ⟨σ, ?_, fun _ _ _ => rfl, fun _ => rfl⟩
      rw [hfind, hrun]
      rfl
    | some out =>
      have hfo : find_output i.transaction_id i.block_id i.output_index σ =
          some (some (setSpentTrue out),
            markSpent i.transaction_id i.block_id i.output_index σ) := by
        rw [find_output_eq, hblk, hout]
      have hpass : passInput sender σ i =
          (out.receiver_address == sender && out.spent_transaction_id == "") := by
        unfold passInput
        rw [hout]
      by_cases h1 : out.receiver_address = sender
      · by_cases h2 : out.spent_transaction_id = ""
        · have hpassT : passInput sender σ i = true := by
            rw [hpass, h1, h2]
            simp
          have hbm : ∀ j ∈ rest,
              (alookup j.block_id
                (markSpent i.transaction_id i.block_id i.output_index σ).blocks).isSome =
                true := by
            intro j hj
            rw [alookup_blocks_markSpent]
            exact hb j (List.mem_cons_of_mem i hj)
          obtain ⟨σ2, hrun, hview, hblks⟩ :=
            ih (markSpent i.transaction_id i.block_id i.output_index σ) hbm
          have hfindm :
              rest.find? (fun j =>
                !passInput sender (markSpent i.transaction_id i.block_id i.output_index σ) j) =
              rest.find? (fun j => !passInput sender σ j) :=
            find_congr_mem _ _ rest (fun j _ => by rw [passInput_markSpent])
          have hcheck : checkInputs sender (i :: rest) σ =
              checkInputs sender rest
                (markSpent i.transaction_id i.block_id i.output_index σ) := by
            simp only [checkInputs]
            rw [hfo]
            have e1 : ((setSpentTrue out).receiver_address != sender) = false := by
              simp [setSpentTrue, h1]
            have e2 : ((setSpentTrue out).spent_transaction_id != "") = false := by
              simp [setSpentTrue, h2]
            simp [e1, e2]
          have hfind : (i :: rest).find? (fun j => !passInput sender σ j) =
              rest.find? (fun j => !passInput sender σ j) :=
            List.find?_cons_of_neg _ (by rw [hpassT]; simp)
          refine ⟨σ2, ?_, ?_, ?_⟩
          · rw [hcheck, hrun, hfindm, hfind]
          · intro t bb ii
            rw [hview t bb ii, viewCheck_markSpent]
          · intro k
            rw [hblks k, alookup_blocks_markSpent]
        · have hpassF : passInput sender σ i = false := by
            rw [hpass]
            simp [h2]
          have hcheck : checkInputs sender (i :: rest) σ =
              some (false, some i,
                markSpent i.transaction_id i.block_id i.output_index σ) := by
            simp only [checkInputs]
            rw [hfo]
            have e1 : ((setSpentTrue out).receiver_address != sender) = false := by
              simp [setSpentTrue, h1]
            have e2 : ((setSpentTrue out).spent_transaction_id != "") = true := by
              simp [setSpentTrue, h2]
            simp [e1, e2]
          have hfind : (i :: rest).find? (fun j => !passInput sender σ j) = some i :=
            List.find?_cons_of_pos _ (by rw [hpassF]; rfl)
          refine ⟨markSpent i.transaction_id i.block_id i.output_index σ, ?_, ?_, ?_⟩
          · rw [hcheck, hfind]
            rfl
          · intro t bb ii
            rw [viewCheck_markSpent]
          · intro k
            rw [alookup_blocks_markSpent]
      · have hpassF : passInput sender σ i = false := by
          rw [hpass]
          simp [h1]
        have hcheck : checkInputs sender (i :: rest) σ =
            some (false, some i,
              markSpent i.transaction_id i.block_id i.output_index σ) := by
          simp only [checkInputs]
          rw [hfo]
          have e1 : ((setSpentTrue out).receiver_address != sender) = true := by
            simp [setSpentTrue, h1]
          simp [e1]
        have hfind : (i :: rest).find? (fun j => !passInput sender σ j) = some i :=
          List.find?_cons_of_pos _ (by rw [hpassF]; rfl)
        refine ⟨markSpent i.transaction_id i.block_id i.output_index σ, ?_, ?_, ?_⟩
        · rw [hcheck, hfind]
          rfl
        · intro t bb ii
          rw [viewCheck_markSpent]
        · intro k
          rw [alookup_blocks_markSpent]

/-- A failing run of the input-checking loop is unaffected by any inputs
after the failure: they are never examined. -/
theorem checkInputs_append (sender : String) :
    ∀ (l : List TxnInput) (σ : Ledger) (off : Option TxnInput) (σ2 : Ledger)
      (rest : List TxnInput),
      checkInputs sender l σ = some (false, off, σ2) →
      checkInputs sender (l ++ rest) σ = some (false, off, σ2) := by
  intro l
  induction l with
  | nil =>
    intro σ off σ2 rest h
    simp [checkInputs] at h
  | cons i tl ih =>
    intro σ off σ2 rest h
    rw [List.cons_append]
    cases hfo : find_output i.transaction_id i.block_id i.output_index σ with
    | none =>
      rw [checkInputs_cons_err sender i tl σ hfo] at h
      cases h
    | some pr =>
      obtain ⟨o, σm⟩ := pr
      cases o with
      | none =>
        rw [checkInputs_cons_notfound sender i tl σ σm hfo] at h
        rw [checkInputs_cons_notfound sender i (tl ++ rest) σ σm hfo]
        exact h
      | some out =>
        rw [checkInputs_cons_found sender i tl σ σm out hfo] at h
        rw [checkInputs_cons_found sender i (tl ++ rest) σ σm out hfo]
        by_cases e1 : (out.receiver_address != sender) = true
        · rw [if_pos e1] at h ⊢
          exact h
        · rw [if_neg e1] at h ⊢
          by_cases e2 : (out.spent_transaction_id != "") = true
          · rw [if_pos e2] at h ⊢
            exact h
          · rw [if_neg e2] at h ⊢
            exact ih σm off σ2 rest h

/-- Spent flags set before a run of the input-checking loop remain set in
its final ledger. -/
theorem checkInputs_spent_mono (sender : String) :
    ∀ (l : List TxnInput) (σ : Ledger) (r : Bool) (off : Option TxnInput) (σ2 : Ledger),
      checkInputs sender l σ = some (r, off, σ2) →
      ∀ t b i, spentView σ t b i = some true → spentView σ2 t b i = some true := by
  intro l
  induction l with
  | nil =>
    intro σ r off σ2 h t bb ii hs
    simp only [checkInputs, Option.some_inj, Prod.mk.injEq] at h
    rw [← h.2.2]
    exact hs
  | cons i tl ih =>
    intro σ r off σ2 h t bb ii hs
    cases hfo : find_output i.transaction_id i.block_id i.output_index σ with
    | none =>
      rw [checkInputs_cons_err sender i tl σ hfo] at h
      cases h
    | some pr =>
      obtain ⟨o, σm⟩ := pr
      have hσm : σm = σ ∨ σm = markSpent i.transaction_id i.block_id i.output_index σ := by
        rw [find_output_eq] at hfo
        cases hblk : alookup i.block_id σ.blocks with
        | none => rw [hblk] at hfo; cases hfo
        | some blk =>
          rw [hblk] at hfo
          cases hout : lookupOut σ i.transaction_id i.block_id i.output_index with
          | none =>
            rw [hout] at hfo
            exact Or.inl (congrArg (fun p => p.2) (Option.some_inj.mp hfo)).symm
          | some out2 =>
            rw [hout] at hfo
            exact Or.inr (congrArg (fun p => p.2) (Option.some_inj.mp hfo)).symm
      have hsm : spentView σm t bb ii = some true := by
        rcases hσm with h1 | h1
        · rw [h1]; exact hs
        · rw [h1]; exact spentView_markSpent_mono σ _ _ _ t bb ii hs
      cases o with
      | none =>
        rw [checkInputs_cons_notfound sender i tl σ σm hfo] at h
        simp only [Option.some_inj, Prod.mk.injEq] at h
        rw [← h.2.2]
        exact hsm
      | some out =>
        rw [checkInputs_cons_found sender i tl σ σm out hfo] at h
        by_cases e1 : (out.receiver_address != sender) = true
        · rw [if_pos e1] at h
          simp only [Option.some_inj, Prod.mk.injEq] at h
          rw [← h.2.2]
          exact hsm
        · rw [if_neg e1] at h
          by_cases e2 : (out.spent_transaction_id != "") = true
          · rw [if_pos e2] at h
            simp only [Option.some_inj, Prod.mk.injEq] at h
            rw [← h.2.2]
            exact hsm
          · rw [if_neg e2] at h
            exact ih σm r off σ2 h t bb ii hsm

/-- Every input the loop looks up and finds gets its archived output
spent-marked in the final ledger, whatever the overall verdict. -/
theorem checkInputs_marks (sender : String) :
    ∀ (l : List TxnInput) (σ : Ledger) (r : Bool) (off : Option TxnInput) (σ2 : Ledger),
      checkInputs sender l σ = some (r, off, σ2) →
      ∀ j ∈ foundRefs sender l σ,
        spentView σ2 j.transaction_id j.block_id j.output_index = some true := by
  intro l
  induction l with
  | nil =>
    intro σ r off σ2 _ j hj
    simp [foundRefs] at hj
  | cons i tl ih =>
    intro σ r off σ2 h j hj
    cases hfo : find_output i.transaction_id i.block_id i.output_index σ with
    | none =>
      rw [foundRefs_cons_err sender i tl σ hfo] at hj
      simp at hj
    | some pr =>
      obtain ⟨o, σm⟩ := pr
      cases o with
      | none =>
        rw [foundRefs_cons_notfound sender i tl σ σm hfo] at hj
        simp at hj
      | some out =>
        have hlook : ∃ out0, lookupOut σ i.transaction_id i.block_id i.output_index =
            some out0 ∧ out = setSpentTrue out0 ∧
            σm = markSpent i.transaction_id i.block_id i.output_index σ := by
          rw [find_output_eq] at hfo
          cases hblk : alookup i.block_id σ.blocks with
          | none =>
            rw [hblk] at hfo
            exact absurd hfo (by simp)
          | some blk =>
            rw [hblk] at hfo
            cases hout : lookupOut σ i.transaction_id i.block_id i.output_index with
            | none =>
              rw [hout] at hfo
              have hfo2 : some ((Option.none : Option StoredOutput), σ) =
                  some (some out, σm) := hfo
              simp at hfo2
            | some out0 =>
              rw [hout] at hfo
              have hfo2 : some (some (setSpentTrue out0),
                  markSpent i.transaction_id i.block_id i.output_index σ) =
                  some (some out, σm) := hfo
              simp only [Option.some_inj, Prod.mk.injEq] at hfo2
              exact ⟨out0, rfl, hfo2.1.symm, hfo2.2.symm⟩
        obtain ⟨out0, hout, hout_eq, hσm⟩ := hlook
        have hset : spentView (markSpent i.transaction_id i.block_id i.output_index σ)
            i.transaction_id i.block_id i.output_index = some true :=
          spentView_markSpent_set σ _ _ _ (by rw [hout]; rfl)
        rw [checkInputs_cons_found sender i tl σ σm out hfo] at h
        rw [foundRefs_cons_found sender i tl σ σm out hfo] at hj
        by_cases hp : (out.receiver_address == sender &&
            out.spent_transaction_id == "") = true
        · have hp2 := hp
          rw [Bool.and_eq_true] at hp2
          obtain ⟨ha, hb2⟩ := hp2
          have e1 : (out.receiver_address != sender) = false := by
            simp only [bne, ha, Bool.not_true]
          have e2 : (out.spent_transaction_id != "") = false := by
            simp only [bne, hb2, Bool.not_true]
          rw [e1] at h
          rw [if_neg (by simp)] at h
          rw [e2] at h
          rw [if_neg (by simp)] at h
          rw [if_pos hp] at hj
          rcases List.mem_cons.mp hj with hj1 | hj2
          · subst hj1
            refine checkInputs_spent_mono sender tl σm r off σ2 h _ _ _ ?_
            rw [hσm]
            exact hset
          · exact ih σm r off σ2 h j hj2
        · rw [if_neg hp] at hj
          have hjone : j = i := by simpa using hj
          subst hjone
          by_cases ha : (out.receiver_address == sender) = true
          · have hb2 : (out.spent_transaction_id == "") = false := by
              cases hx : (out.spent_transaction_id == "") with
              | false => rfl
              | true =>
                refine absurd ?_ hp
                rw [Bool.and_eq_true]
                exact ⟨ha, hx⟩
            have e1 : (out.receiver_address != sender) = false := by
              simp only [bne, ha, Bool.not_true]
            have e2 : (out.spent_transaction_id != "") = true := by
              simp only [bne, hb2, Bool.not_false]
            rw [e1] at h
            rw [if_neg (by simp)] at h
            rw [if_pos e2] at h
            simp only [Option.some_inj, Prod.mk.injEq] at h
            rw [← h.2.2, hσm]
            exact hset
          · have e1 : (out.receiver_address != sender) = true := by
              simp only [bne]
              simp only [Bool.not_eq_true] at ha
              simp [ha]
            rw [if_pos e1] at h
            simp only [Option.some_inj, Prod.mk.injEq] at h
            rw [← h.2.2, hσm]
            exact hset

/-! ### Claim C3 — the verdict of `Transaction.verify` -/

/-- C3: a bad signature yields `(false, None)` without naming an input;
with a valid signature the result names the first input in order failing
the existence/ownership/unspent checks (judged against the incoming
ledger), `(true, None)` comes back exactly when the signature is valid and
every input passes, and a failing run is insensitive to any inputs after
the failure — they are never examined. -/
theorem transaction_verify_characterization
    (sv : String → String → String → Bool) (t : Transaction) (σ : Ledger)
    (hb : ∀ i ∈ t.inputs, (alookup i.block_id σ.blocks).isSome = true) :
    (sv t.unlock.sender_public_key t.unlock.signature (composeMessage t).1 = false →
      Transaction.verify sv t σ = some (false, Option.none, σ)) ∧
    (sv t.unlock.sender_public_key t.unlock.signature (composeMessage t).1 = true →
      ∃ σ2, Transaction.verify sv t σ =
        some ((t.inputs.find? (fun j => !passInput t.unlock.sender_public_key σ j)).isNone,
          t.inputs.find? (fun j => !passInput t.unlock.sender_public_key σ j), σ2)) ∧
    ((∃ σ2, Transaction.verify sv t σ = some (true, Option.none, σ2)) ↔
      (sv t.unlock.sender_public_key t.unlock.signature (composeMessage t).1 = true ∧
        ∀ i ∈ t.inputs, passInput t.unlock.sender_public_key σ i = true)) ∧
    (∀ (rest : List TxnInput) (off : Option TxnInput) (σ2 : Ledger),
      checkInputs t.unlock.sender_public_key t.inputs σ = some (false, off, σ2) →
      checkInputs t.unlock.sender_public_key (t.inputs ++ rest) σ =
        some (false, off, σ2)) := by
  obtain ⟨σc, hrunc, _, _⟩ := checkInputs_run t.unlock.sender_public_key t.inputs σ hb
  have hfalse : sv t.unlock.sender_public_key t.unlock.signature (composeMessage t).1 =
      false → Transaction.verify sv t σ = some (false, Option.none, σ) := by
    intro hsv
    show (if sv t.unlock.sender_public_key t.unlock.signature (composeMessage t).1 = true
      then checkInputs t.unlock.sender_public_key t.inputs σ
      else some (false, Option.none, σ)) = _
    rw [hsv]
    simp
  have hserve : sv t.unlock.sender_public_key t.unlock.signature (composeMessage t).1 =
      true → Transaction.verify sv t σ =
        some ((t.inputs.find? (fun j => !passInput t.unlock.sender_public_key σ j)).isNone,
          t.inputs.find? (fun j => !passInput t.unlock.sender_public_key σ j), σc) := by
    intro hsv
    show (if sv t.unlock.sender_public_key t.unlock.signature (composeMessage t).1 = true
      then checkInputs t.unlock.sender_public_key t.inputs σ
      else some (false, Option.none, σ)) = _
    rw [hsv, if_pos rfl]
    exact hrunc
  refine ⟨hfalse, fun hsv => ⟨σc, hserve hsv⟩, ⟨?_, ?_⟩,
    fun rest off σ2 h => checkInputs_append _ _ _ _ _ _ h⟩
  · rintro ⟨σ2, hv⟩
    cases hsv : sv t.unlock.sender_public_key t.unlock.signature (composeMessage t).1 with
    | false =>
      rw [hfalse hsv] at hv
      simp at hv
    | true =>
      rw [hserve hsv] at hv
      simp only [Option.some_inj, Prod.mk.injEq] at hv
      refine ⟨rfl, fun i hi => ?_⟩
      have hnp := List.find?_eq_none.mp hv.2.1 i hi
      simpa using hnp
  · rintro ⟨hsv, hall⟩
    have hnone : t.inputs.find? (fun j => !passInput t.unlock.sender_public_key σ j) =
        Option.none :=
      List.find?_eq_none.mpr (fun i hi => by rw [hall i hi]; simp)
    refine ⟨σc, ?_⟩
    rw [hserve hsv, hnone]
    rfl

/-- C3 (witness): the characterization at a concrete valid transaction of
`alice` over the one-output ledger. -/
theorem transaction_verify_characterization_witness :
    (svAll tnxA.unlock.sender_public_key tnxA.unlock.signature (composeMessage tnxA).1 =
        false →
      Transaction.verify svAll tnxA ledger1 = some (false, Option.none, ledger1)) ∧
    (svAll tnxA.unlock.sender_public_key tnxA.unlock.signature (composeMessage tnxA).1 =
        true →
      ∃ σ2, Transaction.verify svAll tnxA ledger1 =
        some ((tnxA.inputs.find?
            (fun j => !passInput tnxA.unlock.sender_public_key ledger1 j)).isNone,
          tnxA.inputs.find? (fun j => !passInput tnxA.unlock.sender_public_key ledger1 j),
          σ2)) ∧
    ((∃ σ2, Transaction.verify svAll tnxA ledger1 = some (true, Option.none, σ2)) ↔
      (svAll tnxA.unlock.sender_public_key tnxA.unlock.signature (composeMessage tnxA).1 =
          true ∧
        ∀ i ∈ tnxA.inputs, passInput tnxA.unlock.sender_public_key ledger1 i = true)) ∧
    (∀ (rest : List TxnInput) (off : Option TxnInput) (σ2 : Ledger),
      checkInputs tnxA.unlock.sender_public_key tnxA.inputs ledger1 =
        some (false, off, σ2) →
      checkInputs tnxA.unlock.sender_public_key (tnxA.inputs ++ rest) ledger1 =
        some (false, off, σ2)) :=
  transaction_verify_characterization svAll tnxA ledger1 (by decide)

/-! ### Claim C4 — double spending -/

/-- C4: the code accepts a double spend.  Transaction `tnxA` of `alice`
consumes the only output of `t1`/`b1` and verifies `(true, None)`, the
lookup marks the archived output with `spent: True`, yet the second
transaction `tnxB` referencing the very same output still verifies
`(true, None)` on the marked ledger — because the unspent check reads
`spent_transaction_id`, which nothing ever writes. -/
theorem double_spend_passes_verification :
    Transaction.verify svAll tnxA ledger1 = some (true, Option.none, ledger1Marked) ∧
    spentView ledger1Marked "t1" "b1" 0 = some true ∧
    (Transaction.verify svAll tnxB ledger1Marked).map (fun x => (x.1, x.2.1)) =
      some (true, Option.none) :=
  ⟨rfl, rfl, rfl⟩

/-! ### Claim C10 — verification writes spent marks -/

/-- C10: transaction verification is not read-only.  Every input whose
referenced output the loop looks up and finds has a `spent: True` mark
written into the persisted block record of the final ledger, whatever the
overall verdict; and with a valid signature `Transaction.verify` is exactly
that loop. -/
theorem verify_lookups_mark_spent :
    (∀ (sender : String) (inputs : List TxnInput) (σ : Ledger) (r : Bool)
        (off : Option TxnInput) (σ2 : Ledger),
      checkInputs sender inputs σ = some (r, off, σ2) →
      ∀ j ∈ foundRefs sender inputs σ,
        spentView σ2 j.transaction_id j.block_id j.output_index = some true) ∧
    (∀ (sv : String → String → String → Bool) (t : Transaction) (σ : Ledger),
      sv t.unlock.sender_public_key t.unlock.signature (composeMessage t).1 = true →
      Transaction.verify sv t σ = checkInputs t.unlock.sender_public_key t.inputs σ) := by
  constructor
  · intro sender inputs σ r off σ2 h j hj
    exact checkInputs_marks sender inputs σ r off σ2 h j hj
  · intro sv t σ hsv
    show (if sv t.unlock.sender_public_key t.unlock.signature (composeMessage t).1 = true
      then checkInputs t.unlock.sender_public_key t.inputs σ
      else some (false, Option.none, σ)) = _
    rw [hsv, if_pos rfl]

/-- C10 (witness): a run that returns `(false, offender)` — `carol` does
not own the output — still leaves the looked-up output spent-marked in the
persisted block record. -/
theorem verify_lookups_mark_spent_witness :
    checkInputs "carol" [inputRef1] ledger1 = some (false, some inputRef1, ledger1Marked) ∧
    inputRef1 ∈ foundRefs "carol" [inputRef1] ledger1 ∧
    spentView ledger1Marked inputRef1.transaction_id inputRef1.block_id
      inputRef1.output_index = some true :=
  ⟨rfl, by decide,
    verify_lookups_mark_spent.1 "carol" [inputRef1] ledger1 false (some inputRef1)
      ledger1Marked rfl inputRef1 (by decide)⟩

/-! ### Input selection and value conservation (claims C6, C7) -/

/-- The greedy total equals the sum of the selected records. -/
theorem selectInputs_total_eq_sum (amount : Rat) :
    ∀ (l : List TxnInput) (acc : Rat),
      (selectInputs amount l acc).1 = acc + sumInAmounts (selectInputs amount l acc).2 := by
  intro l
  induction l with
  | nil =>
    intro acc
    simp [selectInputs, sumInAmounts]
  | cons i rest ih =>
    intro acc
    by_cases hc : amount ≤ acc + i.amount
    · simp only [selectInputs, if_pos hc]
      simp [sumInAmounts]
    · simp only [selectInputs, if_neg hc]
      rw [ih (acc + i.amount)]
      simp [sumInAmounts]
      ring

/-- When the whole list covers the amount, the greedy total covers it. -/
theorem selectInputs_covers (amount : Rat) :
    ∀ (l : List TxnInput) (acc : Rat), amount ≤ acc + sumInAmounts l →
      amount ≤ (selectInputs amount l acc).1 := by
  intro l
  induction l with
  | nil =>
    intro acc h
    simpa [selectInputs, sumInAmounts] using h
  | cons i rest ih =>
    intro acc h
    by_cases hc : amount ≤ acc + i.amount
    · simpa [selectInputs, if_pos hc] using hc
    · simp only [selectInputs, if_neg hc]
      refine ih (acc + i.amount) ?_
      have : sumInAmounts (i :: rest) = i.amount + sumInAmounts rest := by
        simp [sumInAmounts]
      rw [this] at h
      linarith

/-- `get_inputs` when the balance does not cover the amount. -/
theorem get_inputs_insufficient (amount : Rat) (σ : Ledger) (h : ¬ amount ≤ σ.balance) :
    get_inputs amount σ = ((0, []), σ) := by
  unfold get_inputs
  rw [if_neg h]

/-- `get_inputs` when the balance covers the amount. -/
theorem get_inputs_sufficient (amount : Rat) (σ : Ledger) (h : amount ≤ σ.balance) :
    get_inputs amount σ =
      (((selectInputs amount σ.unspent 0).1, (selectInputs amount σ.unspent 0).2),
       { σ with
         unspent := σ.unspent.filter
           (fun i => !((selectInputs amount σ.unspent 0).2.contains i)),
         balance := σ.balance - (selectInputs amount σ.unspent 0).1 }) := by
  unfold get_inputs
  rw [if_pos h]

/-- `add_output` on a falsy selection total raises the insufficient-funds
`ValueError` and touches neither the transaction nor anything beyond what
`get_inputs` already wrote. -/
theorem add_output_error_of (t : Transaction) (sender receiver : String) (amount : Rat)
    (σ σ2 : Ledger) (total : Rat) (ins : List TxnInput)
    (hg : get_inputs amount σ = ((total, ins), σ2)) (hz : (total == 0) = true) :
    t.add_output sender receiver amount σ = (Except.error "Insufficient Funds", t, σ2) := by
  unfold Transaction.add_output
  rw [hg]
  show (if (total == 0) = true then _ else _) = _
  rw [if_pos hz]

/-- `add_output` on a truthy selection total appends the selected inputs,
the payment output and — when the total exceeds the amount — the refund
output. -/
theorem add_output_ok_of (t : Transaction) (sender receiver : String) (amount : Rat)
    (σ σ2 : Ledger) (total : Rat) (ins : List TxnInput)
    (hg : get_inputs amount σ = ((total, ins), σ2)) (hz : (total == 0) = false) :
    t.add_output sender receiver amount σ =
      (Except.ok (),
       { t with
         inputs := t.inputs ++ ins,
         input_count := t.input_count + ins.length,
         outputs := t.outputs ++ ({ receiver_address := receiver, amount := amount,
                                    spent_transaction_id := "" } ::
           (if amount < total then
              [{ receiver_address := sender, amount := total - amount,
                 spent_transaction_id := "" }]
            else [])),
         output_count := t.output_count + 1 + (if amount < total then 1 else 0) },
       σ2) := by
  unfold Transaction.add_output
  rw [hg]
  show (if (total == 0) = true then _ else _) = _
  rw [hz]
  simp

/-- Sums distribute over appended input lists. -/
theorem sumInAmounts_append (a b : List TxnInput) :
    sumInAmounts (a ++ b) = sumInAmounts a + sumInAmounts b := by
  simp [sumInAmounts]

/-- Sums distribute over appended output lists. -/
theorem sumOutAmounts_append (a b : List OutRec) :
    sumOutAmounts (a ++ b) = sumOutAmounts a + sumOutAmounts b := by
  simp [sumOutAmounts]

/-! ### Claim C7 — when the insufficient-funds error is raised -/

/-- C7: with a positive amount and the wallet balance equal to the unspent
file's total (the available unspent total), `add_output` raises the
insufficient-funds error exactly when that total is below the requested
amount, and when it raises, the transaction and the whole ledger state are
unchanged. -/
theorem add_output_insufficient_funds (t : Transaction) (sender receiver : String)
    (amount : Rat) (σ : Ledger) (hamt : 0 < amount)
    (hcons : σ.balance = sumInAmounts σ.unspent) :
    ((t.add_output sender receiver amount σ).1 = Except.error "Insufficient Funds" ↔
      σ.balance < amount) ∧
    ((t.add_output sender receiver amount σ).1 = Except.error "Insufficient Funds" →
      (t.add_output sender receiver amount σ).2.1 = t ∧
      (t.add_output sender receiver amount σ).2.2 = σ) := by
  by_cases hb : amount ≤ σ.balance
  · have hcov : amount ≤ (selectInputs amount σ.unspent 0).1 := by
      refine selectInputs_covers amount σ.unspent 0 ?_
      rw [← hcons] at *
      linarith
    have hz : ((selectInputs amount σ.unspent 0).1 == 0) = false := by
      have hne : (selectInputs amount σ.unspent 0).1 ≠ 0 := by
        have : (0 : Rat) < (selectInputs amount σ.unspent 0).1 := lt_of_lt_of_le hamt hcov
        linarith
      simpa using hne
    have hok := add_output_ok_of t sender receiver amount σ _ _ _
      (get_inputs_sufficient amount σ hb) hz
    rw [hok]
    constructor
    · constructor
      · intro herr
        simp at herr
      · intro hlt
        linarith
    · intro herr
      simp at herr
  · have hz : ((0 : Rat) == 0) = true := by simp
    have herr := add_output_error_of t sender receiver amount σ σ 0 []
      (get_inputs_insufficient amount σ hb) hz
    rw [herr]
    refine ⟨⟨fun _ => lt_of_not_le hb, fun _ => rfl⟩, fun _ => ⟨rfl, rfl⟩⟩

/-- C7 (witness): requesting 30 against a balance of 25 raises and leaves
everything unchanged. -/
theorem add_output_insufficient_funds_witness :
    (0 : Rat) < 30 ∧
    (((tnx0.add_output "s" "r" 30 ledgerW).1 = Except.error "Insufficient Funds" ↔
        ledgerW.balance < 30) ∧
      ((tnx0.add_output "s" "r" 30 ledgerW).1 = Except.error "Insufficient Funds" →
        (tnx0.add_output "s" "r" 30 ledgerW).2.1 = tnx0 ∧
        (tnx0.add_output "s" "r" 30 ledgerW).2.2 = ledgerW)) :=
  ⟨by with_unfolding_all decide,
    add_output_insufficient_funds tnx0 "s" "r" 30 ledgerW (by with_unfolding_all decide)
      (by with_unfolding_all decide)⟩

/-! ### Claim C6 — value conservation -/

/-- C6: on every successful `add_output` call with positive amount, against
a store whose balance equals the unspent total, the transaction's input and
output sums stay equal: the selected inputs' total is paid out as one
output of `amount` to the receiver plus, when the total exceeds `amount`,
one refund output of `total - amount` back to the sender. -/
theorem add_output_value_conservation (t : Transaction) (sender receiver : String)
    (amount : Rat) (σ : Ledger) (t2 : Transaction) (σ2 : Ledger)
    (hamt : 0 < amount) (hcons : σ.balance = sumInAmounts σ.unspent)
    (hbal : sumInAmounts t.inputs = sumOutAmounts t.outputs)
    (h : t.add_output sender receiver amount σ = (Except.ok (), t2, σ2)) :
    sumInAmounts t2.inputs = sumOutAmounts t2.outputs ∧
    (∃ total sel,
      amount ≤ total ∧ sumInAmounts sel = total ∧
      t2.inputs = t.inputs ++ sel ∧
      t2.outputs = t.outputs ++
        ({ receiver_address := receiver, amount := amount, spent_transaction_id := "" } ::
          (if amount < total then
            [{ receiver_address := sender, amount := total - amount,
               spent_transaction_id := "" }]
           else []))) := by
  by_cases hb : amount ≤ σ.balance
  · have hcov : amount ≤ (selectInputs amount σ.unspent 0).1 := by
      refine selectInputs_covers amount σ.unspent 0 ?_
      rw [← hcons] at *
      linarith
    have hsum : sumInAmounts (selectInputs amount σ.unspent 0).2 =
        (selectInputs amount σ.unspent 0).1 := by
      have := selectInputs_total_eq_sum amount σ.unspent 0
      linarith
    have hz : ((selectInputs amount σ.unspent 0).1 == 0) = false := by
      have hne : (selectInputs amount σ.unspent 0).1 ≠ 0 := by
        have : (0 : Rat) < (selectInputs amount σ.unspent 0).1 := lt_of_lt_of_le hamt hcov
        linarith
      simpa using hne
    have hok := add_output_ok_of t sender receiver amount σ _ _ _
      (get_inputs_sufficient amount σ hb) hz
    rw [hok] at h
    simp only [Prod.mk.injEq, Except.ok.injEq, true_and] at h
    obtain ⟨ht2, _⟩ := h
    set total := (selectInputs amount σ.unspent 0).1 with htotal
    set sel := (selectInputs amount σ.unspent 0).2 with hsel
    have houtsum : sumOutAmounts
        ({ receiver_address := receiver, amount := amount, spent_transaction_id := "" } ::
          (if amount < total then
            [{ receiver_address := sender, amount := total - amount,
               spent_transaction_id := "" }]
           else []) : List OutRec) = total := by
      by_cases hlt : amount < total
      · rw [if_pos hlt]
        simp [sumOutAmounts]
      · have heq : total = amount := le_antisymm (not_lt.mp hlt) hcov
        rw [if_neg hlt]
        simp [sumOutAmounts, heq]
    constructor
    · rw [← ht2]
      simp only [sumInAmounts_append, sumOutAmounts_append, hbal, hsum, houtsum]
    · exact ⟨total, sel, hcov, hsum, by rw [← ht2], by rw [← ht2]⟩
  · have hz : ((0 : Rat) == 0) = true := by simp
    have herr := add_output_error_of t sender receiver amount σ σ 0 []
      (get_inputs_insufficient amount σ hb) hz
    rw [herr] at h
    simp at h

/-- C6 (witness): sending 10 from a 25-unit input conserves value: the
built transaction's inputs sum to 25 and its outputs (10 to the receiver,
15 refund) also sum to 25. -/
theorem add_output_value_conservation_witness :
    (0 : Rat) < 10 ∧ sumInAmounts tnxW.inputs = sumOutAmounts tnxW.outputs :=
  ⟨by with_unfolding_all decide,
    (add_output_value_conservation tnx0 "s" "r" 10 ledgerW tnxW ledgerW2
      (by with_unfolding_all decide) (by with_unfolding_all decide) rfl
      (by with_unfolding_all rfl)).1⟩

/-! ### Order facts for the key comparison (claim C8) -/

/-- Boolean-to-Prop bridge for `Nat.blt`. -/
theorem bltT {x y : Nat} (h : x < y) : Nat.blt x y = true := by
  simpa using h

/-- Boolean-to-Prop bridge for a failing `Nat.blt`. -/
theorem bltF {x y : Nat} (h : ¬ x < y) : Nat.blt x y = false := by
  cases hb : Nat.blt x y with
  | false => rfl
  | true => exact absurd (by simpa using hb) h

/-- The character-list order is asymmetric. -/
theorem charsLtB_asymm : ∀ (as bs : List Char),
    charsLtB as bs = true → charsLtB bs as = false := by
  intro as
  induction as with
  | nil =>
    intro bs h
    cases bs with
    | nil => simp [charsLtB] at h
    | cons b bs => simp [charsLtB]
  | cons a as ih =>
    intro bs h
    cases bs with
    | nil => simp [charsLtB] at h
    | cons b bs =>
      simp only [charsLtB] at h ⊢
      by_cases hab : a.toNat < b.toNat
      · rw [bltF (by omega : ¬ b.toNat < a.toNat), bltT hab]
        simp
      · by_cases hba : b.toNat < a.toNat
        · rw [bltF hab, bltT hba] at h
          simp at h
        · rw [bltF hab, bltF hba] at h
          simp only [Bool.false_eq_true, if_false] at h
          rw [bltF hba, bltF hab]
          simp only [Bool.false_eq_true, if_false]
          exact ih bs h

/-- Two lists neither of which precedes the other are equal. -/
theorem charsLtB_total_eq : ∀ (as bs : List Char),
    charsLtB as bs = false → charsLtB bs as = false → as = bs := by
  intro as
  induction as with
  | nil =>
    intro bs h1 _
    cases bs with
    | nil => rfl
    | cons b bs => simp [charsLtB] at h1
  | cons a as ih =>
    intro bs h1 h2
    cases bs with
    | nil => simp [charsLtB] at h2
    | cons b bs =>
      simp only [charsLtB] at h1 h2
      by_cases hab : a.toNat < b.toNat
      · rw [bltT hab] at h1
        simp at h1
      · by_cases hba : b.toNat < a.toNat
        · rw [bltT hba] at h2
          simp at h2
        · rw [bltF hab, bltF hba] at h1
          rw [bltF hba, bltF hab] at h2
          simp only [Bool.false_eq_true, if_false] at h1 h2
          have hhead : a = b := by
            have : a.toNat = b.toNat := by omega
            rw [← Char.ofNat_toNat a, ← Char.ofNat_toNat b, this]
          rw [hhead, ih bs h1 h2]

/-- The character-list order is transitive. -/
theorem charsLtB_trans : ∀ (as bs cs : List Char),
    charsLtB as bs = true → charsLtB bs cs = true → charsLtB as cs = true := by
  intro as
  induction as with
  | nil =>
    intro bs cs h1 h2
    cases bs with
    | nil => simp [charsLtB] at h1
    | cons b bs =>
      cases cs with
      | nil => simp [charsLtB] at h2
      | cons c cs => simp [charsLtB]
  | cons a as ih =>
    intro bs cs h1 h2
    cases bs with
    | nil => simp [charsLtB] at h1
    | cons b bs =>
      cases cs with
      | nil => simp [charsLtB] at h2
      | cons c cs =>
        simp only [charsLtB] at h1 h2 ⊢
        by_cases hab : a.toNat < b.toNat
        · by_cases hbc : b.toNat < c.toNat
          · rw [bltT (by omega : a.toNat < c.toNat)]
            simp
          · by_cases hcb : c.toNat < b.toNat
            · rw [bltF hbc, bltT hcb] at h2
              simp at h2
            · rw [bltT (by omega : a.toNat < c.toNat)]
              simp
        · by_cases hba : b.toNat < a.toNat
          · rw [bltF hab, bltT hba] at h1
            simp at h1
          · rw [bltF hab, bltF hba] at h1
            simp only [Bool.false_eq_true, if_false] at h1
            by_cases hbc : b.toNat < c.toNat
            · rw [bltT (by omega : a.toNat < c.toNat)]
              simp
            · by_cases hcb : c.toNat < b.toNat
              · rw [bltF hbc, bltT hcb] at h2
                simp at h2
              · rw [bltF hbc, bltF hcb] at h2
                simp only [Bool.false_eq_true, if_false] at h2
                rw [bltF (by omega : ¬ a.toNat < c.toNat),
                  bltF (by omega : ¬ c.toNat < a.toNat)]
                simp only [Bool.false_eq_true, if_false]
                exact ih bs cs h1 h2

/-- Asymmetry at the string level. -/
theorem strLtB_asymm (a b : String) (h : strLtB a b = true) : strLtB b a = false :=
  charsLtB_asymm a.data b.data h

/-- Totality-with-equality at the string level. -/
theorem strLtB_total_eq (a b : String) (h1 : strLtB a b = false)
    (h2 : strLtB b a = false) : a = b := by
  obtain ⟨la⟩ := a
  obtain ⟨lb⟩ := b
  rw [charsLtB_total_eq la lb h1 h2]

/-- Transitivity at the string level. -/
theorem strLtB_trans (a b c : String) (h1 : strLtB a b = true)
    (h2 : strLtB b c = true) : strLtB a c = true :=
  charsLtB_trans a.data b.data c.data h1 h2

/-! ### Sorting lemmas for the canonical encoder -/

/-- Inserting is a permutation. -/
theorem insertByKey_perm (x : String × PyVal) :
    ∀ (l : List (String × PyVal)), (insertByKey x l).Perm (x :: l) := by
  intro l
  induction l with
  | nil => exact List.Perm.refl _
  | cons y ys ih =>
    simp only [insertByKey]
    by_cases h : strLtB x.1 y.1 = true
    · rw [if_pos h]
    · rw [if_neg h]
      exact (ih.cons y).trans (List.Perm.swap x y ys)

/-- Sorting is a permutation. -/
theorem sortPairs_perm : ∀ (l : List (String × PyVal)), (sortPairs l).Perm l := by
  intro l
  induction l with
  | nil => exact List.Perm.refl _
  | cons x xs ih =>
    simp only [sortPairs]
    exact (insertByKey_perm x (sortPairs xs)).trans (ih.cons x)

/-- Inserting preserves sortedness by key. -/
theorem insertByKey_pairwise (x : String × PyVal) :
    ∀ (l : List (String × PyVal)),
      List.Pairwise (fun p q => strLtB q.1 p.1 = false) l →
      List.Pairwise (fun p q => strLtB q.1 p.1 = false) (insertByKey x l) := by
  intro l
  induction l with
  | nil =>
    intro _
    simp [insertByKey]
  | cons y ys ih =>
    intro hp
    obtain ⟨hy, hys⟩ := List.pairwise_cons.mp hp
    simp only [insertByKey]
    by_cases h : strLtB x.1 y.1 = true
    · rw [if_pos h]
      refine List.pairwise_cons.mpr ⟨?_, hp⟩
      intro z hz
      rcases List.mem_cons.mp hz with rfl | hz2
      · exact strLtB_asymm _ _ h
      · have hzy := hy z hz2
        cases hzx : strLtB z.1 x.1 with
        | false => rfl
        | true =>
          rw [strLtB_trans _ _ _ hzx h] at hzy
          cases hzy
    · rw [if_neg h]
      refine List.pairwise_cons.mpr ⟨?_, ih hys⟩
      intro z hz
      have hmem : z = x ∨ z ∈ ys := by
        simpa using (insertByKey_perm x ys).mem_iff.mp hz
      rcases hmem with rfl | hz2
      · exact Bool.eq_false_iff.mpr h
      · exact hy z hz2

/-- The sort output is sorted by key. -/
theorem sortPairs_pairwise : ∀ (l : List (String × PyVal)),
    List.Pairwise (fun p q => strLtB q.1 p.1 = false) (sortPairs l) := by
  intro l
  induction l with
  | nil => simp [sortPairs]
  | cons x xs ih =>
    simp only [sortPairs]
    exact insertByKey_pairwise x (sortPairs xs) ih

/-- Two key-sorted entry lists that are permutations of each other with
duplicate-free keys are equal. -/
theorem sorted_nodup_unique :
    ∀ (l1 l2 : List (String × PyVal)), l1.Perm l2 →
      List.Pairwise (fun p q => strLtB q.1 p.1 = false) l1 →
      List.Pairwise (fun p q => strLtB q.1 p.1 = false) l2 →
      (l1.map Prod.fst).Nodup → l1 = l2 := by
  intro l1
  induction l1 with
  | nil =>
    intro l2 hp _ _ _
    exact (List.Perm.eq_nil hp.symm).symm
  | cons x xs ih =>
    intro l2 hp hp1 hp2 hnd
    have hx2 : x ∈ l2 := hp.mem_iff.mp (List.mem_cons_self x xs)
    cases l2 with
    | nil => exact absurd hx2 (List.not_mem_nil x)
    | cons y ys =>
      by_cases hxy : x = y
      · subst hxy
        rw [ih ys hp.cons_inv (List.pairwise_cons.mp hp1).2 (List.pairwise_cons.mp hp2).2
          (List.nodup_cons.mp (by simpa using hnd)).2]
      · have hy1 : y ∈ x :: xs := hp.mem_iff.mpr (List.mem_cons_self y ys)
        have hyxs : y ∈ xs := by
          rcases List.mem_cons.mp hy1 with h | h
          · exact absurd h.symm hxy
          · exact h
        have hxys : x ∈ ys := by
          rcases List.mem_cons.mp hx2 with h | h
          · exact absurd h hxy
          · exact h
        have h1 : strLtB y.1 x.1 = false := (List.pairwise_cons.mp hp1).1 y hyxs
        have h2 : strLtB x.1 y.1 = false := (List.pairwise_cons.mp hp2).1 x hxys
        have hkey : x.1 = y.1 := strLtB_total_eq _ _ h2 h1
        have hin : x.1 ∈ xs.map Prod.fst := List.mem_map.mpr ⟨y, hyxs, hkey.symm⟩
        exact absurd hin (List.nodup_cons.mp (by simpa using hnd)).1

/-- Sorting two permuted entry lists with duplicate-free keys gives the
same output: the model of Python `sorted`'s order-independence. -/
theorem sortPairs_eq_of_perm (l1 l2 : List (String × PyVal)) (hp : l1.Perm l2)
    (hnd : (l1.map Prod.fst).Nodup) : sortPairs l1 = sortPairs l2 := by
  refine sorted_nodup_unique (sortPairs l1) (sortPairs l2)
    ((sortPairs_perm l1).trans (hp.trans (sortPairs_perm l2).symm))
    (sortPairs_pairwise l1) (sortPairs_pairwise l2) ?_
  exact (((sortPairs_perm l1).map Prod.fst).symm).nodup hnd

/-- Dict lookup is permutation-invariant under duplicate-free keys. -/
theorem alookupPy_perm (k : String) :
    ∀ (l1 l2 : List (String × PyVal)), l1.Perm l2 → (l1.map Prod.fst).Nodup →
      alookupPy k l1 = alookupPy k l2 := by
  intro l1 l2 hp
  induction hp with
  | nil => intro _; rfl
  | cons x h ih =>
    intro hnd
    obtain ⟨k2, v⟩ := x
    by_cases hk : k2 = k
    · simp [alookupPy, hk]
    · simp only [alookupPy, show (k2 == k) = false by simpa using hk,
        Bool.false_eq_true, if_false]
      refine ih ?_
      rw [List.map_cons] at hnd
      exact (List.nodup_cons.mp hnd).2
  | swap x y l =>
    intro hnd
    obtain ⟨kx, vx⟩ := x
    obtain ⟨ky, vy⟩ := y
    have hnd2 : (ky :: kx :: List.map Prod.fst l).Nodup := by simpa using hnd
    have hne : ky ≠ kx := by
      intro he
      exact (List.nodup_cons.mp hnd2).1 (he ▸ List.mem_cons_self kx (List.map Prod.fst l))
    by_cases hkx : kx = k
    · have hky : ky ≠ k := fun he => hne (he.trans hkx.symm)
      simp [alookupPy, hkx, hky]
    · by_cases hky2 : ky = k
      · simp [alookupPy, hkx, hky2]
      · simp [alookupPy, hkx, hky2]
  | trans h1 h2 ih1 ih2 =>
    intro hnd
    exact (ih1 hnd).trans (ih2 (((h1.map Prod.fst)).nodup hnd))

/-! ### Canonical-encoder invariance (claim C8) -/

/-- Lookup skips a prefix that does not bind the key. -/
theorem alookupPy_append_right (k : String) :
    ∀ (pre rest : List (String × PyVal)), ¬ k ∈ pre.map Prod.fst →
      alookupPy k (pre ++ rest) = alookupPy k rest := by
  intro pre
  induction pre with
  | nil => intro rest _; rfl
  | cons x xs ih =>
    intro rest h
    obtain ⟨k2, v⟩ := x
    have hk : ¬ k2 = k := by
      intro he
      exact h (by simp [he])
    have hk2 : (k2 == k) = false := by simpa using hk
    simp only [List.cons_append, alookupPy, hk2, Bool.false_eq_true, if_false]
    exact ih rest (fun hm => h (by simp at hm ⊢; exact Or.inr hm))

/-- The transaction-level ordering is invariant under permuting the
transaction dict's entries (duplicate-free keys). -/
theorem orderTxn_perm (e1 e2 : List (String × PyVal)) (hp : e1.Perm e2)
    (hnd : (e1.map Prod.fst).Nodup) : orderTxn (.dict e1) = orderTxn (.dict e2) := by
  simp only [orderTxn]
  rw [alookupPy_perm "unlock" e1 e2 hp hnd]
  cases hu : alookupPy "unlock" e2 with
  | none => rfl
  | some u =>
    cases u with
    | dict ul =>
      have hkeys : ∀ kv : String × PyVal,
          ((fun kv : String × PyVal =>
            if kv.1 == "unlock" then (kv.1, pairsToTups (sortPairs ul)) else kv) kv).1 =
            kv.1 := by
        intro kv
        by_cases hkv : (kv.1 == "unlock") = true
        · simp [hkv]
        · simp [hkv]
      have hperm2 := hp.map (fun kv : String × PyVal =>
        if kv.1 == "unlock" then (kv.1, pairsToTups (sortPairs ul)) else kv)
      have hnd2 : ((e1.map (fun kv : String × PyVal =>
          if kv.1 == "unlock" then (kv.1, pairsToTups (sortPairs ul)) else kv)).map
            Prod.fst).Nodup := by
        rw [List.map_map]
        have : (Prod.fst ∘ fun kv : String × PyVal =>
            if kv.1 == "unlock" then (kv.1, pairsToTups (sortPairs ul)) else kv) =
            Prod.fst := by
          funext kv
          exact hkeys kv
        rw [this]
        exact hnd
      show some (pairsToTups (sortPairs (e1.map (fun kv : String × PyVal =>
          if kv.1 == "unlock" then (kv.1, pairsToTups (sortPairs ul)) else kv)))) =
        some (pairsToTups (sortPairs (e2.map (fun kv : String × PyVal =>
          if kv.1 == "unlock" then (kv.1, pairsToTups (sortPairs ul)) else kv))))
      rw [sortPairs_eq_of_perm _ _ hperm2 hnd2]
    | str s2 => rfl
    | int n => rfl
    | flt q => rfl
    | bool b => rfl
    | pnone => rfl
    | list xs => rfl
    | tup xs => rfl

/-- The transaction-level ordering is invariant under permuting the nested
unlock dict's entries (duplicate-free keys). -/
theorem orderTxn_unlock_perm (pre post u1 u2 : List (String × PyVal))
    (hnotin : ¬ "unlock" ∈ pre.map Prod.fst) (hp : u1.Perm u2)
    (hnd : (u1.map Prod.fst).Nodup) :
    orderTxn (.dict (pre ++ ("unlock", .dict u1) :: post)) =
      orderTxn (.dict (pre ++ ("unlock", .dict u2) :: post)) := by
  have hsort : sortPairs u1 = sortPairs u2 := sortPairs_eq_of_perm u1 u2 hp hnd
  simp only [orderTxn]
  have hl1 : alookupPy "unlock" (pre ++ ("unlock", .dict u1) :: post) =
      some (.dict u1) := by
    rw [alookupPy_append_right "unlock" pre _ hnotin]
    simp [alookupPy]
  have hl2 : alookupPy "unlock" (pre ++ ("unlock", .dict u2) :: post) =
      some (.dict u2) := by
    rw [alookupPy_append_right "unlock" pre _ hnotin]
    simp [alookupPy]
  rw [hl1, hl2]
  show some (pairsToTups (sortPairs ((pre ++ ("unlock", PyVal.dict u1) :: post).map
      (fun kv : String × PyVal =>
        if kv.1 == "unlock" then (kv.1, pairsToTups (sortPairs u1)) else kv)))) =
    some (pairsToTups (sortPairs ((pre ++ ("unlock", PyVal.dict u2) :: post).map
      (fun kv : String × PyVal =>
        if kv.1 == "unlock" then (kv.1, pairsToTups (sortPairs u2)) else kv))))
  rw [hsort]
  rw [List.map_append, List.map_append, List.map_cons, List.map_cons]
  simp

/-- Keys survive the per-transaction ordering pass. -/
theorem orderDataEntries_keys :
    ∀ (d l : List (String × PyVal)), orderDataEntries d = some l →
      l.map Prod.fst = d.map Prod.fst := by
  intro d
  induction d with
  | nil =>
    intro l h
    have h2 : some ([] : List (String × PyVal)) = some l := h
    rw [← Option.some_inj.mp h2]
  | cons x rest ih =>
    obtain ⟨tid, t⟩ := x
    intro l h
    simp only [orderDataEntries] at h
    cases ht : orderTxn t with
    | none =>
      rw [ht] at h
      have h2 : (Option.none : Option (List (String × PyVal))) = some l := h
      cases h2
    | some t2 =>
      rw [ht] at h
      cases hr : orderDataEntries rest with
      | none =>
        rw [hr] at h
        have h2 : (Option.none : Option (List (String × PyVal))) = some l := h
        cases h2
      | some rest2 =>
        rw [hr] at h
        have h2 : some ((tid, t2) :: rest2) = some l := h
        rw [← Option.some_inj.mp h2]
        simp [ih rest2 hr]

/-- Whether the per-transaction pass succeeds is permutation-invariant. -/
theorem orderDataEntries_isSome_perm :
    ∀ (d1 d2 : List (String × PyVal)), d1.Perm d2 →
      (orderDataEntries d1).isSome = (orderDataEntries d2).isSome := by
  intro d1 d2 hp
  induction hp with
  | nil => rfl
  | cons x h ih =>
    obtain ⟨tid, t⟩ := x
    simp only [orderDataEntries]
    cases ht : orderTxn t with
    | none => rfl
    | some t2 =>
      cases h1 : orderDataEntries _ with
      | none =>
        cases h2 : orderDataEntries _ with
        | none => rfl
        | some r2 =>
          rw [h1, h2] at ih
          cases ih
      | some r1 =>
        cases h2 : orderDataEntries _ with
        | none =>
          rw [h1, h2] at ih
          cases ih
        | some r2 => rfl
  | swap x y l =>
    obtain ⟨kx, tx⟩ := x
    obtain ⟨ky, ty⟩ := y
    cases h1 : orderTxn ty <;> cases h2 : orderTxn tx <;>
      cases h3 : orderDataEntries l <;>
        simp [orderDataEntries, h1, h2, h3]
  | trans h1 h2 ih1 ih2 => exact ih1.trans ih2

/-- The per-transaction pass maps permutations to permutations. -/
theorem orderDataEntries_perm_some :
    ∀ (d1 d2 : List (String × PyVal)), d1.Perm d2 →
      ∀ l1 l2, orderDataEntries d1 = some l1 → orderDataEntries d2 = some l2 →
        l1.Perm l2 := by
  intro d1 d2 hp
  induction hp with
  | nil =>
    intro l1 l2 h1 h2
    have e1 : some ([] : List (String × PyVal)) = some l1 := h1
    have e2 : some ([] : List (String × PyVal)) = some l2 := h2
    rw [← Option.some_inj.mp e1, ← Option.some_inj.mp e2]
  | cons x h ih =>
    obtain ⟨tid, t⟩ := x
    intro l1 l2 h1 h2
    simp only [orderDataEntries] at h1 h2
    cases ht : orderTxn t with
    | none =>
      rw [ht] at h1
      have e1 : (Option.none : Option (List (String × PyVal))) = some l1 := h1
      cases e1
    | some t2 =>
      rw [ht] at h1 h2
      cases hr1 : orderDataEntries _ with
      | none =>
        rw [hr1] at h1
        have e1 : (Option.none : Option (List (String × PyVal))) = some l1 := h1
        cases e1
      | some r1 =>
        rw [hr1] at h1
        cases hr2 : orderDataEntries _ with
        | none =>
          rw [hr2] at h2
          have e2 : (Option.none : Option (List (String × PyVal))) = some l2 := h2
          cases e2
        | some r2 =>
          rw [hr2] at h2
          have e1 : some ((tid, t2) :: r1) = some l1 := h1
          have e2 : some ((tid, t2) :: r2) = some l2 := h2
          rw [← Option.some_inj.mp e1, ← Option.some_inj.mp e2]
          exact (ih r1 r2 hr1 hr2).cons (tid, t2)
  | swap x y l =>
    obtain ⟨kx, tx⟩ := x
    obtain ⟨ky, ty⟩ := y
    intro l1 l2 h1 h2
    simp only [orderDataEntries] at h1 h2
    cases hty : orderTxn ty with
    | none =>
      rw [hty] at h1
      have e1 : (Option.none : Option (List (String × PyVal))) = some l1 := h1
      cases e1
    | some ty2 =>
      cases htx : orderTxn tx with
      | none =>
        rw [hty, htx] at h1
        have e1 : (Option.none : Option (List (String × PyVal))) = some l1 := by
          cases hl : orderDataEntries l with
          | none => rw [hl] at h1; exact h1
          | some r => rw [hl] at h1; exact h1
        cases e1
      | some tx2 =>
        cases hl : orderDataEntries l with
        | none =>
          rw [hty, htx, hl] at h1
          have e1 : (Option.none : Option (List (String × PyVal))) = some l1 := h1
          cases e1
        | some r =>
          rw [hty, htx, hl] at h1 h2
          have e1 : some ((ky, ty2) :: (kx, tx2) :: r) = some l1 := h1
          have e2 : some ((kx, tx2) :: (ky, ty2) :: r) = some l2 := h2
          rw [← Option.some_inj.mp e1, ← Option.some_inj.mp e2]
          exact List.Perm.swap (kx, tx2) (ky, ty2) r
  | trans hA hB ihA ihB =>
    intro l1 l2 h1 h2
    have hmid := orderDataEntries_isSome_perm _ _ hA
    rw [h1] at hmid
    obtain ⟨lm, hm⟩ := Option.isSome_iff_exists.mp (by rw [← hmid]; rfl)
    exact (ihA l1 lm h1 hm).trans (ihB lm l2 hm h2)

/-- The block-data ordering is invariant under permuting the outer
transaction collection (duplicate-free transaction ids). -/
theorem orderData_perm (d1 d2 : List (String × PyVal)) (hp : d1.Perm d2)
    (hnd : (d1.map Prod.fst).Nodup) : orderData d1 = orderData d2 := by
  unfold orderData
  cases h1 : orderDataEntries d1 with
  | none =>
    cases h2 : orderDataEntries d2 with
    | none => rfl
    | some l2 =>
      have hs := orderDataEntries_isSome_perm d1 d2 hp
      rw [h1, h2] at hs
      cases hs
  | some l1 =>
    have hs : (orderDataEntries d2).isSome = true := by
      rw [← orderDataEntries_isSome_perm d1 d2 hp, h1]
      rfl
    obtain ⟨l2, h2⟩ := Option.isSome_iff_exists.mp hs
    rw [h2]
    simp only [Option.map_some', Option.some_inj]
    have hperm := orderDataEntries_perm_some d1 d2 hp l1 l2 h1 h2
    have hk1 := orderDataEntries_keys d1 l1 h1
    rw [sortPairs_eq_of_perm l1 l2 hperm (by rw [hk1]; exact hnd)]

/-! ### Claim C8 — order-independence of the canonical encoding -/

/-- C8 (counterexample): two blocks whose field mappings hold identical
key/value pairs — the unlock entries and the nested output dict's entries
are permutations — canonicalize to different byte output and different
SHA-256 hashes, because the encoder never sorts the output dicts. -/
theorem canonical_encoding_nested_order_cex :
    ([("b", PyVal.int 1), ("a", PyVal.int 2)]).Perm [("a", PyVal.int 2), ("b", PyVal.int 1)] ∧
    ([("x", PyVal.int 1), ("y", PyVal.int 2)]).Perm [("y", PyVal.int 2), ("x", PyVal.int 1)] ∧
    (setOrderData blockOrderA).map getMiningData ≠
      (setOrderData blockOrderB).map getMiningData ∧
    (setOrderData blockOrderA).map (fun b => sha256hex (getMiningData b)) ≠
      (setOrderData blockOrderB).map (fun b => sha256hex (getMiningData b)) := by
  refine ⟨List.Perm.swap ("a", PyVal.int 2) ("b", PyVal.int 1) [],
    List.Perm.swap ("y", PyVal.int 2) ("x", PyVal.int 1) [], by decide, by decide⟩

/-- C8 (amended): the canonical encoding is order-independent at exactly
the levels `__set_order_data` sorts — the outer transaction collection,
each transaction's top-level mapping, and its unlock mapping (each with
duplicate-free keys): permuting entries there leaves the ordered data, the
encoded mining payload, and hence the SHA-256 hashes identical.  Nested
structures below those levels (such as an output's dict) are not
canonicalized and must already coincide. -/
theorem canonical_encoding_sorted_levels :
    (∀ (d1 d2 : List (String × PyVal)), d1.Perm d2 → (d1.map Prod.fst).Nodup →
      orderData d1 = orderData d2) ∧
    (∀ (e1 e2 : List (String × PyVal)), e1.Perm e2 → (e1.map Prod.fst).Nodup →
      orderTxn (.dict e1) = orderTxn (.dict e2)) ∧
    (∀ (pre post u1 u2 : List (String × PyVal)), ¬ "unlock" ∈ pre.map Prod.fst →
      u1.Perm u2 → (u1.map Prod.fst).Nodup →
      orderTxn (.dict (pre ++ ("unlock", .dict u1) :: post)) =
        orderTxn (.dict (pre ++ ("unlock", .dict u2) :: post))) ∧
    (∀ (b1 b2 : Block), b1.previous_block_id = b2.previous_block_id →
      b1.version = b2.version → orderData b1.data = orderData b2.data →
      b1.ordered_data = Option.none → b2.ordered_data = Option.none →
      (setOrderData b1).map getMiningData = (setOrderData b2).map getMiningData ∧
      (setOrderData b1).map (fun b => sha256hex (getMiningData b)) =
        (setOrderData b2).map (fun b => sha256hex (getMiningData b))) := by
  refine ⟨orderData_perm, orderTxn_perm, orderTxn_unlock_perm, ?_⟩
  intro b1 b2 hprev hver hdata hc1 hc2
  unfold setOrderData
  rw [hc1, hc2]
  simp only [orderedTruthy, Bool.false_eq_true, if_false]
  rw [hdata]
  cases orderData b2.data with
  | none => exact ⟨rfl, rfl⟩
  | some od =>
    simp only [Option.map_some', Option.some_inj]
    constructor
    · show b1.previous_block_id ++ pyStr od ++ pyStr b1.version = _
      rw [hprev, hver]
      rfl
    · show sha256hex (b1.previous_block_id ++ pyStr od ++ pyStr b1.version) = _
      rw [hprev, hver]
      rfl

/-- C8 (witness): the block data `permDataA`/`permDataB` — identical
transactions inserted in opposite orders — canonicalize identically. -/
theorem canonical_encoding_sorted_levels_witness :
    permDataA.Perm permDataB ∧ orderData permDataA = orderData permDataB :=
  ⟨List.Perm.swap ("b", PyVal.dict [("unlock", PyVal.dict [])])
      ("a", PyVal.dict [("unlock", PyVal.dict [])]) [],
    canonical_encoding_sorted_levels.1 permDataA permDataB
      (List.Perm.swap ("b", PyVal.dict [("unlock", PyVal.dict [])])
        ("a", PyVal.dict [("unlock", PyVal.dict [])]) [])
      (by decide)⟩

end DeltaABC
